import Mathlib

/-!
# Verification of the query-orchestration pipeline

Shallow embedding of the core services of the Githaf agentic chatbot
(`rag_service.py`, `validation_service.py`, `learning_service.py`) and proofs
about them.

Modeling conventions:

* Python strings are modeled as `List Char`; character classes (`\w`, `\s`,
  `\d`, case folding) use Lean's ASCII-oriented `Char` predicates, matching
  Python's behaviour on ASCII text.
* Python floats are modeled as rationals (`ℚ`); none of the verified
  properties depends on binary floating-point rounding.
* External collaborators (embedding backend, vector search, LLM generation,
  conversation store) are oracles passed in as function parameters; calls that
  may raise are modeled with `Except Unit`.
* Functions that the source defines with `async def` are modeled as pure
  functions of their oracle parameters, reflecting the single-threaded
  cooperative execution model.
-/

/-! ## Basic string utilities (Python `str` operations on `List Char`) -/

/-- `\w` character class: letters, digits and underscore (ASCII model). -/
def isWordChar (c : Char) : Bool := c.isAlphanum || c = '_'

/-- Case-insensitive character comparison (`re.IGNORECASE`). -/
def ciEq (a b : Char) : Bool := a.toLower = b.toLower

/-- Python `s.lower()`. -/
def lowerL (s : List Char) : List Char := s.map Char.toLower

/-- Python `s.strip()`. -/
def trimL (s : List Char) : List Char :=
  ((s.dropWhile Char.isWhitespace).reverse.dropWhile Char.isWhitespace).reverse

/-- Does `s` start with `pat` (exact match)? -/
def listStarts : List Char → List Char → Bool
  | [], _ => true
  | _ :: _, [] => false
  | p :: ps, c :: cs => p = c && listStarts ps cs

/-- Python `needle in s` (contiguous substring containment). -/
def hasSub (needle : List Char) : List Char → Bool
  | [] => listStarts needle []
  | c :: cs => listStarts needle (c :: cs) || hasSub needle cs

/-- Python `s.split("\n")`. -/
def splitNL (s : List Char) : List (List Char) :=
  match s with
  | [] => [[]]
  | c :: cs =>
    let r := splitNL cs
    if c = '\n' then [] :: r
    else
      match r with
      | [] => [[c]]
      | h :: t => (c :: h) :: t

/-- Python `s.split(sep, 1)[1]`: everything after the first occurrence of
`sep`, or `[]` when `sep` does not occur. -/
def afterFirst (sep : Char) : List Char → List Char
  | [] => []
  | c :: cs => if c = sep then cs else afterFirst sep cs

/-- Python `random.choice(l)` modeled with an explicit index oracle `i`. -/
def choice (l : List (List Char)) (i : ℕ) : List Char := l.getD (i % l.length) []

/-! ## `preprocess_query` (rag_service.py lines 37–89)

Each substitution in the source is a `re.sub` with a pattern of the shape
`\b(alt1|alt2|…)\b` (case-insensitive literal alternatives, tried in order),
optionally with the negative lookahead `(?!\s+Word)` (the company-name rule),
and a literal replacement.  `scanSub` below implements exactly this fragment
of the regex language: scan left to right, at each position whose predecessor
is not a word character try the alternatives in order (checking the trailing
word boundary and the lookahead per alternative), replace the first match and
continue scanning after the matched text. -/

/-- One `re.sub` rule: alternatives (first char + rest, so each alternative is
nonempty), the literal replacement, and an optional negative lookahead
`(?!\s+w)`. -/
structure SubRule where
  alts : List (Char × List Char)
  repl : List Char
  lookA : Option (List Char)
deriving DecidableEq

/-- Case-insensitive literal match; returns the rest of the input. -/
def matchCI : List Char → List Char → Option (List Char)
  | [], s => some s
  | _ :: _, [] => none
  | p :: ps, c :: cs => if ciEq p c then matchCI ps cs else none

/-- Word boundary after a match: end of input or a non-word character. -/
def boundaryAfter : List Char → Bool
  | [] => true
  | c :: _ => !isWordChar c

/-- Is `w` a case-insensitive prefix of `s`? -/
def ciIsPre : List Char → List Char → Bool
  | [], _ => true
  | _ :: _, [] => false
  | p :: ps, c :: cs => ciEq p c && ciIsPre ps cs

/-- After at least one whitespace character: skip further whitespace, then
require `w` as a case-insensitive prefix. -/
def lookRest (w : List Char) : List Char → Bool
  | [] => false
  | c :: cs => if c.isWhitespace then lookRest w cs else ciIsPre w (c :: cs)

/-- The lookahead body `\s+w` (case-insensitive) matches at `s`. -/
def lookWS (w : List Char) : List Char → Bool
  | [] => false
  | c :: cs => c.isWhitespace && (if w = [] then true else lookRest w cs)

/-- Try one alternative at the current position (which must already satisfy
the leading word boundary): case-insensitive literal match, trailing word
boundary, and the optional negative lookahead. -/
def lookOk (lkA : Option (List Char)) (rest : List Char) : Bool :=
  match lkA with
  | none => true
  | some w => !lookWS w rest

def tryAlt (lkA : Option (List Char)) (a : Char × List Char) :
    List Char → Option (List Char)
  | [] => none
  | c :: cs =>
    if ciEq a.1 c then
      match matchCI a.2 cs with
      | some rest =>
        if boundaryAfter rest && lookOk lkA rest then some rest
        else none
      | none => none
    else none

/-- Try the alternatives in order (regex alternation). -/
def tryAlts (lkA : Option (List Char)) : List (Char × List Char) → List Char →
    Option (List Char)
  | [], _ => none
  | a :: as, s =>
    match tryAlt lkA a s with
    | some rest => some rest
    | none => tryAlts lkA as s

/-- The scanning loop of `re.sub`, with explicit fuel (one unit per scanning
step; `fuel ≥ length of the input` is always enough since every step consumes
at least one character).  `prevW` records whether the previous character of
the input was a word character (leading `\b`). -/
def subFuel (r : SubRule) : ℕ → Bool → List Char → List Char
  | 0, _, s => s
  | _ + 1, _, [] => []
  | fuel + 1, prevW, c :: cs =>
    if prevW then c :: subFuel r fuel (isWordChar c) cs
    else
      match tryAlts r.lookA r.alts (c :: cs) with
      | some rest => r.repl ++ subFuel r fuel true rest
      | none => c :: subFuel r fuel (isWordChar c) cs

/-- `re.sub` for one rule over a whole string. -/
def scanSub (r : SubRule) (s : List Char) : List Char := subFuel r s.length false s

/-- Build a (nonempty) alternative from a string literal. -/
def mkAlt (w : String) : Char × List Char :=
  match w.toList with
  | [] => ('?', [])
  | c :: cs => (c, cs)

/-- `\b(Githaf)(?!\s+Consulting)\b` → `Githaf Consulting` (source line 58). -/
def githafRule : SubRule :=
  { alts := [mkAlt "Githaf"], repl := "Githaf Consulting".toList,
    lookA := some "Consulting".toList }

/-- The misspelling table (source lines 61–80), in insertion order. -/
def misspellRules : List SubRule :=
  [ { alts := [mkAlt "emial", mkAlt "emal", mkAlt "e-mail"],
      repl := "email".toList, lookA := none },
    { alts := [mkAlt "contct", mkAlt "contac", mkAlt "contat"],
      repl := "contact".toList, lookA := none },
    { alts := [mkAlt "locaton", mkAlt "loction", mkAlt "locaion"],
      repl := "location".toList, lookA := none },
    { alts := [mkAlt "addres", mkAlt "adress"],
      repl := "address".toList, lookA := none },
    { alts := [mkAlt "phne", mkAlt "phn"],
      repl := "phone".toList, lookA := none },
    { alts := [mkAlt "servce", mkAlt "servic", mkAlt "servces"],
      repl := "services".toList, lookA := none },
    { alts := [mkAlt "consultin", mkAlt "consultng", mkAlt "consutling"],
      repl := "consulting".toList, lookA := none },
    { alts := [mkAlt "bussiness", mkAlt "busines", mkAlt "buisness"],
      repl := "business".toList, lookA := none },
    { alts := [mkAlt "queston", mkAlt "questin", mkAlt "qustion"],
      repl := "question".toList, lookA := none },
    { alts := [mkAlt "informaton", mkAlt "informtion", mkAlt "infomation"],
      repl := "information".toList, lookA := none },
    { alts := [mkAlt "avaliable", mkAlt "availble", mkAlt "avalable"],
      repl := "available".toList, lookA := none },
    { alts := [mkAlt "recieve", mkAlt "recive"],
      repl := "receive".toList, lookA := none },
    { alts := [mkAlt "responce", mkAlt "reponse"],
      repl := "response".toList, lookA := none } ]

/-- `preprocess_query` (source lines 37–89): return empty/whitespace-only
input unchanged, otherwise normalize the company name and then apply the
misspelling substitutions in table order. -/
def preprocess_query (query : List Char) : List Char :=
  if query.all Char.isWhitespace then query
  else misspellRules.foldl (fun s r => scanSub r s) (scanSub githafRule query)




/-! ## UNCLEAR clarification-category selection (rag_service.py lines 129–157)

The source runs five independent `for … break` loops over keyword groups; each
loop overwrites `clarification_key` when any of its keywords occurs in the
lowercased, stripped query.  The `break` only leaves the current group's loop,
so the later groups still run. -/

def emailKeywords : List (List Char) := ["email"].map String.toList

def pricingKeywords : List (List Char) :=
  ["pricing", "price", "cost", "payment", "fee"].map String.toList

def contactKeywords : List (List Char) :=
  ["contact", "phone", "address", "location"].map String.toList

def servicesKeywords : List (List Char) := ["services", "service"].map String.toList

def hoursKeywords : List (List Char) :=
  ["hours", "schedule", "availability"].map String.toList

/-- The clarification category computed by the UNCLEAR branch (source lines
131–154), embedded statement-by-statement. -/
def clarification_key (query : List Char) : List Char :=
  let ql := trimL (lowerL query)
  let k := "default".toList
  let k := if emailKeywords.any (fun w => hasSub w ql) then "email".toList else k
  let k := if pricingKeywords.any (fun w => hasSub w ql) then "pricing".toList else k
  let k := if contactKeywords.any (fun w => hasSub w ql) then "contact".toList else k
  let k := if servicesKeywords.any (fun w => hasSub w ql) then "services".toList else k
  let k := if hoursKeywords.any (fun w => hasSub w ql) then "hours".toList else k
  k

/-- Category selection as the spec's sentence describes it: first match in the
fixed priority order email > pricing > contact > services > hours, falling to
"default".  (This definition follows the spec's words, for comparison with
`clarification_key`, which follows the source.) -/
def clarificationKeySpecOrder (query : List Char) : List Char :=
  let ql := trimL (lowerL query)
  if emailKeywords.any (fun w => hasSub w ql) then "email".toList
  else if pricingKeywords.any (fun w => hasSub w ql) then "pricing".toList
  else if contactKeywords.any (fun w => hasSub w ql) then "contact".toList
  else if servicesKeywords.any (fun w => hasSub w ql) then "services".toList
  else if hoursKeywords.any (fun w => hasSub w ql) then "hours".toList
  else "default".toList

/-! ## `parse_validation_response` (validation_service.py lines 75–137) -/

/-- The structured validation verdict (the dict built by
`parse_validation_response`). -/
structure Verdict where
  is_valid : Bool
  confidence : ℚ
  issues : List (List Char)
  retry_recommended : Bool
  suggested_adjustment : List Char
deriving DecidableEq

/-- The initial permissive verdict (source lines 90–96). -/
def defaultVerdict : Verdict :=
  { is_valid := true, confidence := 1, issues := [],
    retry_recommended := false, suggested_adjustment := [] }

/-- Character class of the regex `[\d.]+` (ASCII digits and the dot). -/
def isNumChar (c : Char) : Bool := c.isDigit || c = '.'

/-- `re.search(r"[\d.]+", line)`: the first maximal run of digits/dots. -/
def firstNumToken : List Char → Option (List Char)
  | [] => none
  | c :: cs =>
    if isNumChar c then some (c :: cs.takeWhile isNumChar) else firstNumToken cs

/-- Numeric value of a digit string. -/
def digitsVal (ds : List Char) : ℕ :=
  ds.foldl (fun n c => 10 * n + (c.toNat - '0'.toNat)) 0

/-- Python `float(tok)` for a token made of digits and dots: at most one dot
and at least one digit, value `intpart.fracpart`; otherwise `ValueError`
(modeled as `none`). -/
def pyFloatOfToken (t : List Char) : Option ℚ :=
  let intPart := t.takeWhile Char.isDigit
  let rest := t.dropWhile Char.isDigit
  match rest with
  | [] => if intPart.isEmpty then none else some (mkRat (digitsVal intPart) 1)
  | c :: frac =>
    if c = '.' && frac.all Char.isDigit && (!intPart.isEmpty || !frac.isEmpty) then
      some (mkRat ((digitsVal intPart : ℤ) * 10 ^ frac.length + digitsVal frac)
        (10 ^ frac.length))
    else none

/-- Processing of one (stripped) line of the validator's output
(source lines 98–135, one `elif` arm per recognized field). -/
def parseLine (r : Verdict) (line0 : List Char) : Verdict :=
  let line := trimL line0
  if listStarts "ANSWERS_QUESTION:".toList line then
    if hasSub "yes".toList (lowerL line) then r
    else { r with is_valid := false,
                  issues := r.issues ++ ["doesn\x27t answer question".toList] }
  else if listStarts "IS_GROUNDED:".toList line then
    if hasSub "yes".toList (lowerL line) then r
    else { r with is_valid := false,
                  issues := r.issues ++ ["not grounded in sources".toList] }
  else if listStarts "HAS_HALLUCINATION:".toList line then
    if hasSub "yes".toList (lowerL line) then
      { r with is_valid := false,
               issues := r.issues ++ ["hallucination detected".toList] }
    else r
  else if listStarts "CONFIDENCE:".toList line then
    match firstNumToken line with
    | none => r
    | some tok =>
      match pyFloatOfToken tok with
      | none => r
      | some confidence =>
        if confidence < mkRat 7 10 then
          { r with confidence := confidence, is_valid := false,
                   issues := r.issues ++ ["low confidence".toList] }
        else { r with confidence := confidence }
  else if listStarts "RETRY:".toList line then
    { r with retry_recommended := hasSub "yes".toList (lowerL line) }
  else if listStarts "ADJUSTMENT:".toList line then
    { r with suggested_adjustment := trimL (afterFirst ':' line) }
  else r

/-- `parse_validation_response` (source lines 75–137): strip the text, split
on newlines, fold the line handler over the permissive defaults. -/
def parse_validation_response (text : List Char) : Verdict :=
  (splitNL (trimL text)).foldl parseLine defaultVerdict




/-! ## `retry_with_adjustment` (validation_service.py lines 140–194) -/

/-- The process-wide settings touched by the retry path
(`app.core.config.settings`). -/
structure Settings where
  RAG_SIMILARITY_THRESHOLD : ℚ
  RAG_TOP_K : ℕ
deriving DecidableEq

/-- The textual best-effort adjustment matching (source lines 159–176):
returns the `(new_threshold, new_top_k)` pair the retry will run with.
`new_top_k` starts at the literal `5` and only the "more documents" branch
changes it. -/
def adjustParams (adjustment : List Char) (originalThreshold : ℚ) : ℚ × ℕ :=
  let al := lowerL adjustment
  if hasSub "lower threshold".toList al || hasSub "expand search".toList al then
    (max (mkRat 3 20) (originalThreshold - mkRat 1 10), 5)
  else if hasSub "more documents".toList al || hasSub "increase top_k".toList al then
    (originalThreshold, 10)
  else if hasSub "rephrase".toList al then
    (max (mkRat 1 5) (originalThreshold - mkRat 1 20), 5)
  else (originalThreshold, 5)

/-- The settings in effect while the retried `get_rag_response` call runs
(source lines 182–183 overwrite the process-wide settings with these values;
line 187 issues the call). -/
def retryRunSettings (adjustment : List Char) (originalThreshold : ℚ) : Settings :=
  { RAG_SIMILARITY_THRESHOLD := (adjustParams adjustment originalThreshold).1,
    RAG_TOP_K := (adjustParams adjustment originalThreshold).2 }

/-- `retry_with_adjustment` (source lines 140–194) as a state transformer on
the process-wide settings.  `rag` stands for `get_rag_response`
(query, session_id, include_history, settings, max_retries); the source calls
it as `get_rag_response(query, include_history=False)`, i.e. with
`session_id=None` and the default `max_retries=2`, while the process settings
hold the adjusted values; the `finally` block restores the original settings,
which the second component of the result records. -/
def retry_with_adjustment {α : Type} 
    (rag : List Char → Option (List Char) → Bool → Settings → ℕ → α)
    (s : Settings) (query adjustment : List Char) (originalThreshold : ℚ) :
    α × Settings :=
  (rag query none false (retryRunSettings adjustment originalThreshold) 2, s)

/-! ## The validation retry loop (rag_service.py lines 405–429)

The loop re-validates after every retry; the LLM-dependent outcomes of the
retried pipeline runs and of the validator are supplied as round-indexed
oracle sequences (`retryAt k` / `verdictAt k` are the results of round `k`;
round 0 is the initial generation).  The structural `budget` argument equals
`maxRetries - retry_count` throughout, so it reaches `0` exactly when
`retry_count = maxRetries`, where the `while` condition is false anyway:
the function with `budget = maxRetries` computes precisely the source loop. -/

def retryLoopAux {α : Type} (verdictAt : ℕ → Verdict) (retryAt : ℕ → α)
    (maxRetries : ℕ) : ℕ → ℕ → Verdict → α → ℕ × Verdict × α
  | 0, retryCount, v, p => (retryCount, v, p)
  | budget + 1, retryCount, v, p =>
    if v.is_valid = false ∧ v.retry_recommended = true ∧ retryCount < maxRetries then
      retryLoopAux verdictAt retryAt maxRetries budget (retryCount + 1)
        (verdictAt (retryCount + 1)) (retryAt (retryCount + 1))
    else (retryCount, v, p)

/-- The whole loop of source lines 405–429: start with `retry_count = 0` and
the round-0 verdict and payload. -/
def validationRetryLoop {α : Type} (verdictAt : ℕ → Verdict) (retryAt : ℕ → α)
    (maxRetries : ℕ) : ℕ × Verdict × α :=
  retryLoopAux verdictAt retryAt maxRetries maxRetries 0 (verdictAt 0) (retryAt 0)

/-! ## Threshold learning (`learning_service.py` lines 14–20 and 220–266) -/

/-- The four tunable parameters of `CURRENT_THRESHOLDS`.  (The source stores
them in a string-keyed dict; adjustments for parameter names outside these
four are committed into the dict but do not touch these fields.) -/
structure Thresholds where
  similarity_threshold : ℚ
  top_k : ℚ
  validation_confidence : ℚ
  temperature : ℚ
deriving DecidableEq

/-- Source lines 15–20. -/
def CURRENT_THRESHOLDS : Thresholds :=
  { similarity_threshold := mkRat 1 2, top_k := 5,
    validation_confidence := mkRat 7 10, temperature := mkRat 7 10 }

/-- Everything before the first occurrence of `sep` (Python
`s.split(sep)[0]`). -/
def upToFirst (sep : Char) : List Char → List Char
  | [] => []
  | c :: cs => if c = sep then [] else c :: upToFirst sep cs

/-- Python `float(s)` on arbitrary text: optional sign, digits with at most
one dot (exponents and the `inf`/`nan` spellings are not modeled; no claim
depends on them). `float` strips surrounding whitespace first. -/
def pyFloatQ (s0 : List Char) : Option ℚ :=
  match trimL s0 with
  | '-' :: t => (pyFloatOfToken t).map (fun x => -x)
  | '+' :: t => pyFloatOfToken t
  | t => pyFloatOfToken t

/-- Source lines 236–242: extract the suggested value from a
`"<current> → <suggested> (reasoning)"` adjustment text; `none` when the text
has no `→` or the numeric parse raises `ValueError`. -/
def parseSuggested (adjustment_text : List Char) : Option ℚ :=
  if hasSub ['→'] adjustment_text then
    pyFloatQ (trimL (upToFirst '(' (upToFirst '→' (afterFirst '→' adjustment_text))))
  else none

/-- Safety bounds (source lines 244–252).  For `top_k` the source applies
`int(...)`, which truncates; the clamped value is positive, so truncation is
`⌊·⌋`. -/
def clampFor (param : List Char) (v : ℚ) : ℚ :=
  if param = "similarity_threshold".toList then max (mkRat 3 10) (min (mkRat 4 5) v)
  else if param = "top_k".toList then ((⌊max 3 (min 10 v)⌋ : ℤ) : ℚ)
  else if param = "temperature".toList then max (mkRat 3 10) (min 1 v)
  else if param = "validation_confidence".toList then
    max (mkRat 1 2) (min (mkRat 9 10) v)
  else v

/-- `updated[param] = suggested_value` restricted to the four modeled
fields. -/
def setParam (t : Thresholds) (param : List Char) (v : ℚ) : Thresholds :=
  if param = "similarity_threshold".toList then { t with similarity_threshold := v }
  else if param = "top_k".toList then { t with top_k := v }
  else if param = "temperature".toList then { t with temperature := v }
  else if param = "validation_confidence".toList then { t with validation_confidence := v }
  else t

/-- One iteration of the adjustment loop (source lines 234–261): skip the
entry when parsing fails, otherwise commit the clamped value. -/
def applyOneAdjustment (t : Thresholds) (entry : List Char × List Char) : Thresholds :=
  match parseSuggested entry.2 with
  | none => t
  | some v => setParam t entry.1 (clampFor entry.1 v)

/-- `apply_threshold_adjustments` (source lines 220–266): fold the entries of
the adjustments mapping over a starting copy of the thresholds. -/
def apply_threshold_adjustments (adjustments : List (List Char × List Char))
    (t : Thresholds) : Thresholds :=
  adjustments.foldl applyOneAdjustment t



/-! ## Factual re-ranking (rag_service.py lines 316–345) -/

/-- A retrieved document (`{id, content, similarity}`). -/
structure Doc where
  id : List Char
  content : List Char
  similarity : ℚ
deriving DecidableEq

/-- Location marker words (source line 336). -/
def locationWords : List (List Char) :=
  ["street", "london", "uk", "uae", "city", "mailing address", "office:"].map
    String.toList

/-- The three sequential boosts (source lines 322–338); each is applied to the
already-boosted similarity and capped at `1.0` by `min`. -/
def boostDoc (needsEmail needsPhone needsLocation : Bool) (d : Doc) : Doc :=
  let content := lowerL d.content
  let s := d.similarity
  let s := if needsEmail && hasSub "@".toList content then min 1 (s * mkRat 3 2) else s
  let s :=
    if needsPhone && (hasSub "+".toList content || content.any Char.isDigit) then
      min 1 (s * mkRat 13 10)
    else s
  let s :=
    if needsLocation && locationWords.any (fun w => hasSub w content) then
      min 1 (s * mkRat 8 5)
    else s
  { d with similarity := s }

/-- Descending order on boosted similarity (`sorted(..., reverse=True)`). -/
def simDesc (a b : Doc) : Prop := b.similarity ≤ a.similarity

instance : DecidableRel simDesc :=
  fun a b => inferInstanceAs (Decidable (b.similarity ≤ a.similarity))

instance : IsTotal Doc simDesc := ⟨fun a b => le_total b.similarity a.similarity⟩

instance : IsTrans Doc simDesc := ⟨fun _ _ _ h1 h2 => le_trans h2 h1⟩

/-- The re-ranking block (source lines 316–344): boost every document, sort by
boosted similarity descending (Python's stable sort), keep the top
`RAG_TOP_K`. -/
def rerankDocs (needsEmail needsPhone needsLocation : Bool) (topK : ℕ)
    (docs : List Doc) : List Doc :=
  (List.insertionSort simDesc
      (docs.map (boostDoc needsEmail needsPhone needsLocation))).take topK

/-! ## Intent taxonomy and routing -/

/-- Modelled from the spec: the closed intent enumeration of §3 (the `Intent`
enum is declared in `intent_service.py`, which is not under src; the handler
branches of `get_conversational_response` cover exactly these values). -/
inductive Intent
  | GREETING | FAREWELL | GRATITUDE | HELP | CHIT_CHAT | UNCLEAR | OUT_OF_SCOPE
  | QUESTION
deriving DecidableEq

/-- Modelled from the spec: `intent.value`, the string tag of the enum value
(the exact strings live in `intent_service.py`; no claim depends on their
spelling, only on the tag being a function of the enum value). -/
def Intent.value : Intent → List Char
  | .GREETING => "greeting".toList
  | .FAREWELL => "farewell".toList
  | .GRATITUDE => "gratitude".toList
  | .HELP => "help".toList
  | .CHIT_CHAT => "chit_chat".toList
  | .UNCLEAR => "unclear".toList
  | .OUT_OF_SCOPE => "out_of_scope".toList
  | .QUESTION => "question".toList

/-- Modelled from the spec: `should_use_rag` routes only informational
queries to retrieval (§4.2: a pure function of the enum; every other intent is
handled by `get_conversational_response`). -/
def should_use_rag : Intent → Bool
  | .QUESTION => true
  | _ => false

/-! ## Template and oracle parameters

The prompt/template constants live in `app/utils/prompts.py` (not under src);
they are modeled as parameters, so every theorem below holds for all template
contents.  The external collaborators (§6 of the spec) are oracle fields;
LLM-dependent results that the source consumes per retry round are indexed by
the round number. -/

structure SourceEntry where
  id : List Char
  content : List Char
  similarity : ℚ
deriving DecidableEq

structure ValidationMeta where
  confidence : ℚ
  retry_count : ℕ
  issues : List (List Char)
  is_valid : Bool
deriving DecidableEq

/-- The result dictionary of `get_rag_response` / `get_conversational_response`;
`Option` fields model dict keys that are absent on some paths. `error` records
the presence of the `"error"` key of the top-level exception handler. -/
structure RagDict where
  response : List Char
  sources : List SourceEntry
  context_found : Bool
  intent : Option (List Char)
  conversational : Option Bool
  planned : Option Bool
  validation : Option ValidationMeta
  error : Bool

structure Prompts where
  GREETING_RESPONSES : List (List Char)
  FAREWELL_RESPONSES : List (List Char)
  GRATITUDE_RESPONSES : List (List Char)
  HELP_RESPONSE : List Char
  OUT_OF_SCOPE_RESPONSE : List Char
  UNCLEAR_QUERY_RESPONSE : List Char
  FALLBACK_RESPONSE : List Char
  CLARIFICATION_RESPONSES : List Char → Option (List (List Char))
  ccHowAreYou : List (List Char)
  ccName : List (List Char)
  ccBot : List (List Char)
  ccDefault : List (List Char)
  convCtxFmt : List Char → List Char → List Char
  ragFmt : List Char → List Char → List Char → List Char

structure Oracles where
  classify : List Char → Intent × ℚ
  embed : List Char → Except Unit (List ℚ)
  search : List ℚ → ℕ → ℚ → Except Unit (List Doc)
  generate : List Char → Except Unit (List Char)
  generateShort : List Char → Except Unit (List Char)
  histFetch : List Char → ℕ → Except Unit (List (List Char × List Char))
  histFormat : List (List Char × List Char) → Except Unit (List Char)
  needsPlanning : List Char → Intent → Except Unit Bool
  planResponse : Except Unit (List Char × Bool)
  verdictAt : ℕ → Verdict
  retryAt : ℕ → RagDict
  randIdx : ℕ

/-- The short affirmation tokens of source line 171. -/
def affirmations : List (List Char) :=
  ["yes", "okay", "ok", "sure", "yep", "yeah", "yup"].map String.toList

/-- The result dictionary every conversational branch returns
(source lines 195–201). -/
def conversationalDict (intent : Intent) (response_text : List Char) : RagDict :=
  { response := response_text, sources := [], context_found := false,
    intent := some intent.value, conversational := some true,
    planned := none, validation := none, error := false }

/-- The CHIT_CHAT branch (source lines 159–190).  Only the
`generate_response` call sits inside a `try` (lines 181–185); the history
fetch (line 173) and the history formatting (line 175) are outside it, so
their exceptions propagate. -/
def chitChatResponse (P : Prompts) (o : Oracles) (query : List Char)
    (sessionId : Option (List Char)) : Except Unit (List Char) :=
  let ql := trimL (lowerL query)
  if hasSub "how are you".toList ql || hasSub "how r u".toList ql then
    .ok (choice P.ccHowAreYou o.randIdx)
  else if hasSub "your name".toList ql || hasSub "who are you".toList ql ||
      hasSub "what are you".toList ql then
    .ok (choice P.ccName o.randIdx)
  else if hasSub "bot".toList ql || hasSub "robot".toList ql ||
      hasSub "ai".toList ql then
    .ok (choice P.ccBot o.randIdx)
  else if sessionId.isSome ∧ ql ∈ affirmations then
    match o.histFetch (sessionId.getD []) 3 with
    | .error e => .error e
    | .ok history =>
      if history.length > 0 then
        match o.histFormat history with
        | .error e => .error e
        | .ok historyText =>
          match o.generateShort (P.convCtxFmt query historyText) with
          | .ok t => .ok t
          | .error _ => .ok (choice P.ccDefault o.randIdx)
      else .ok (choice P.ccDefault o.randIdx)
  else .ok (choice P.ccDefault o.randIdx)

/-- `get_conversational_response` (source lines 92–201). -/
def get_conversational_response (P : Prompts) (o : Oracles) (intent : Intent)
    (query : List Char) (sessionId : Option (List Char)) : Except Unit RagDict :=
  let rt : Except Unit (List Char) :=
    match intent with
    | .GREETING => .ok (choice P.GREETING_RESPONSES o.randIdx)
    | .FAREWELL => .ok (choice P.FAREWELL_RESPONSES o.randIdx)
    | .GRATITUDE => .ok (choice P.GRATITUDE_RESPONSES o.randIdx)
    | .HELP => .ok P.HELP_RESPONSE
    | .OUT_OF_SCOPE => .ok P.OUT_OF_SCOPE_RESPONSE
    | .UNCLEAR =>
      .ok (choice ((P.CLARIFICATION_RESPONSES (clarification_key query)).getD
        ((P.CLARIFICATION_RESPONSES "default".toList).getD [])) o.randIdx)
    | .CHIT_CHAT => chitChatResponse P o query sessionId
    | _ => .ok P.UNCLEAR_QUERY_RESPONSE
  match rt with
  | .error e => .error e
  | .ok response_text => .ok (conversationalDict intent response_text)

/-! ## `get_rag_response` (rag_service.py lines 204–459) -/

/-- Factual keywords (source line 289). -/
def factualKeywords : List (List Char) :=
  ["email", "phone", "contact", "address", "number", "reach", "call",
   "location", "where", "office"].map String.toList

def isFactualQuery (ql : List Char) : Bool :=
  factualKeywords.any (fun k => hasSub k ql)

/-- Threshold selection for the retrieval call (source lines 294–299). -/
def factualThreshold (s : Settings) (ql : List Char) : ℚ :=
  if hasSub "email".toList ql || hasSub "location".toList ql ||
      hasSub "where".toList ql || hasSub "address".toList ql then mkRat 1 5
  else if isFactualQuery ql then mkRat 1 4
  else s.RAG_SIMILARITY_THRESHOLD

/-- Source line 318. -/
def needsEmailQ (ql : List Char) : Bool := hasSub "email".toList ql

/-- Source line 319. -/
def needsPhoneQ (ql : List Char) : Bool :=
  hasSub "phone".toList ql || hasSub "call".toList ql || hasSub "number".toList ql

/-- Source line 320. -/
def needsLocationQ (ql : List Char) : Bool :=
  hasSub "location".toList ql || hasSub "where".toList ql ||
    hasSub "address".toList ql || hasSub "office".toList ql

/-- Source line 371: `content[:200] + "..." if len(content) > 200 else content`. -/
def truncate200 (c : List Char) : List Char :=
  if 200 < c.length then c.take 200 ++ "...".toList else c

/-- Source lines 359–375: numbered context blocks joined by blank lines. -/
def buildContext (docs : List Doc) : List Char :=
  List.intercalate "\n\n".toList
    (docs.enum.map (fun p =>
      "[Source ".toList ++ (Nat.repr (p.1 + 1)).toList ++ "] ".toList ++ p.2.content))

/-- Source lines 377–382: the history text is the fixed placeholder unless
`include_history` holds and a session id is present. -/
def historyTextFor (o : Oracles) (includeHistory : Bool)
    (sessionId : Option (List Char)) : Except Unit (List Char) :=
  if includeHistory && sessionId.isSome then
    match o.histFetch (sessionId.getD []) 5 with
    | .error e => .error e
    | .ok h => o.histFormat h
  else .ok "No previous conversation.".toList

/-- The body of `get_rag_response` inside its top-level `try` (source lines
222–450).  The recursive retry calls (line 414) and the validator verdicts
(lines 399, 425) are supplied per round by `o.retryAt` / `o.verdictAt`
(neither `retry_with_adjustment` nor `validate_response` can raise: both
catch their own failures). -/
def ragCore (P : Prompts) (o : Oracles) (s : Settings) (query : List Char)
    (sessionId : Option (List Char)) (includeHistory : Bool) (maxRetries : ℕ) :
    Except Unit RagDict :=
  let processed := preprocess_query query
  let intent := (o.classify processed).1
  if should_use_rag intent = false then
    get_conversational_response P o intent processed sessionId
  else
    match o.needsPlanning processed intent with
    | .error e => .error e
    | .ok np =>
      if np then
        match o.planResponse with
        | .error e => .error e
        | .ok pr =>
          let v := o.verdictAt 0
          .ok { response := pr.1, sources := [], context_found := pr.2,
                intent := some intent.value, conversational := some false,
                planned := some true,
                validation := some ⟨v.confidence, 0, v.issues, v.is_valid⟩,
                error := false }
      else
        match o.embed processed with
        | .error e => .error e
        | .ok emb =>
          let ql := lowerL processed
          let isFactual := isFactualQuery ql
          let threshold := factualThreshold s ql
          let topK := if isFactual then s.RAG_TOP_K * 2 else s.RAG_TOP_K
          match o.search emb topK threshold with
          | .error e => .error e
          | .ok docs0 =>
            let docs :=
              if isFactual && !docs0.isEmpty then
                rerankDocs (needsEmailQ ql) (needsPhoneQ ql) (needsLocationQ ql)
                  s.RAG_TOP_K docs0
              else docs0
            if docs.isEmpty then
              .ok { response := P.FALLBACK_RESPONSE, sources := [],
                    context_found := false, intent := some intent.value,
                    conversational := none, planned := none, validation := none,
                    error := false }
            else
              let sources := docs.map (fun d =>
                SourceEntry.mk d.id (truncate200 d.content) d.similarity)
              let context := buildContext docs
              match historyTextFor o includeHistory sessionId with
              | .error e => .error e
              | .ok historyText =>
                match o.generate (P.ragFmt context historyText query) with
                | .error e => .error e
                | .ok responseText =>
                  let res := validationRetryLoop o.verdictAt
                    (fun k => if k = 0 then (responseText, sources)
                              else ((o.retryAt k).response, (o.retryAt k).sources))
                    maxRetries
                  .ok { response := res.2.2.1, sources := res.2.2.2,
                        context_found := true, intent := some intent.value,
                        conversational := some false, planned := none,
                        validation := some ⟨res.2.1.confidence, res.1,
                          res.2.1.issues, res.2.1.is_valid⟩,
                        error := false }

/-- `get_rag_response` (source lines 204–459): the `except` arm (lines
452–459) converts any pipeline failure into the fixed fallback dictionary
with an `error` key. -/
def get_rag_response (P : Prompts) (o : Oracles) (s : Settings) (query : List Char)
    (sessionId : Option (List Char)) (includeHistory : Bool) (maxRetries : ℕ) :
    RagDict :=
  match ragCore P o s query sessionId includeHistory maxRetries with
  | .ok d => d
  | .error _ =>
    { response := P.FALLBACK_RESPONSE, sources := [], context_found := false,
      intent := none, conversational := none, planned := none,
      validation := none, error := true }

/-! ## Predicates for the idempotence development

`scanClean r prevW s` holds when no position of `s` (scanned with incoming
word-context `prevW`) fires rule `r`; on such strings `scanSub r` is the
identity.  `scanCleanSeg r prevW u v` restricts the fired positions to `u`
while matching against `u ++ v`. -/

def scanClean (r : SubRule) : Bool → List Char → Bool
  | _, [] => true
  | prevW, c :: cs =>
    (prevW || (tryAlts r.lookA r.alts (c :: cs)).isNone) &&
      scanClean r (isWordChar c) cs

def scanCleanSeg (r : SubRule) : Bool → List Char → List Char → Bool
  | _, [], _ => true
  | prevW, c :: cs, v =>
    (prevW || (tryAlts r.lookA r.alts (c :: cs ++ v)).isNone) &&
      scanCleanSeg r (isWordChar c) cs v

/-- The word-context after scanning `u` starting from context `p`. -/
def prevAfter (p : Bool) (u : List Char) : Bool :=
  u.foldl (fun _ c => isWordChar c) p

/-- A case-insensitive whole-pattern match followed by a word boundary. -/
def wMatchB (p : List Char) (X : List Char) : Bool :=
  match matchCI p X with
  | some r => boundaryAfter r
  | none => false

/-- Some position before the end of both lists carries a case-insensitive
mismatch. -/
def ciMismatch : List Char → List Char → Bool
  | a :: as, w :: ws => if ciEq a w then ciMismatch as ws else true
  | _, _ => false

/-- Certificate that an alternative can never fire on text carrying `W` as a
case-insensitive prefix: it either mismatches `W` outright, or it is a proper
prefix of `W` whose following `W`-character is a word character (so the
trailing word boundary fails). -/
def altCSafe (a : Char × List Char) (W : List Char) : Bool :=
  ciMismatch (a.1 :: a.2) W ||
  (ciIsPre (a.1 :: a.2) W &&
    (match W.drop (a.2.length + 1) with
     | wb :: _ => isWordChar wb
     | [] => false))

/-- Certificate that rule `i` cannot fire at any position of `u` (scanned from
context `p`), whatever text follows `u`: every position with a `false`
word-context carries the `altCSafe` certificate against the remaining suffix
of `u`. -/
def segSafe (i : SubRule) : Bool → List Char → Bool
  | _, [] => true
  | p, c :: cs =>
    (p || i.alts.all (fun a => altCSafe a (c :: cs))) && segSafe i (isWordChar c) cs

/-- The rules of `preprocess_query`, in application order. -/
def allRules : List SubRule := githafRule :: misspellRules

/-! ## Derived predicates used to state the parsing claims -/

/-- The confidence value the CONFIDENCE branch would parse from a line
(`re.search(r"[\d.]+", line)` followed by `float`). -/
def parsedConfidence (line : List Char) : Option ℚ :=
  match firstNumToken line with
  | none => none
  | some tok => pyFloatOfToken tok

/-- A line carries one of the four negative signals that demote the verdict
(mirrors the branch structure of `parseLine`). -/
def demotesLine (line0 : List Char) : Bool :=
  let line := trimL line0
  if listStarts "ANSWERS_QUESTION:".toList line then
    !hasSub "yes".toList (lowerL line)
  else if listStarts "IS_GROUNDED:".toList line then
    !hasSub "yes".toList (lowerL line)
  else if listStarts "HAS_HALLUCINATION:".toList line then
    hasSub "yes".toList (lowerL line)
  else if listStarts "CONFIDENCE:".toList line then
    match parsedConfidence line with
    | some c => decide (c < mkRat 7 10)
    | none => false
  else false

/-- A line is recognized as one of the six protocol fields. -/
def recognizedLine (line0 : List Char) : Bool :=
  let line := trimL line0
  listStarts "ANSWERS_QUESTION:".toList line ||
  listStarts "IS_GROUNDED:".toList line ||
  listStarts "HAS_HALLUCINATION:".toList line ||
  listStarts "CONFIDENCE:".toList line ||
  listStarts "RETRY:".toList line ||
  listStarts "ADJUSTMENT:".toList line

/-! ## Concrete template/oracle instances used by closed counterexamples -/

/-- A minimal concrete template set. -/
def cexPrompts : Prompts :=
  { GREETING_RESPONSES := [], FAREWELL_RESPONSES := [], GRATITUDE_RESPONSES := [],
    HELP_RESPONSE := [], OUT_OF_SCOPE_RESPONSE := [], UNCLEAR_QUERY_RESPONSE := [],
    FALLBACK_RESPONSE := "fallback".toList,
    CLARIFICATION_RESPONSES := fun _ => none,
    ccHowAreYou := [], ccName := [], ccBot := [],
    ccDefault := ["generic chit chat".toList],
    convCtxFmt := fun q h => q ++ h,
    ragFmt := fun c h q => c ++ h ++ q }

/-- Oracles for the C9 counterexample: the session has a (nonempty) stored
history, but formatting it raises; the short LLM call would succeed. -/
def cexOraclesFmtFail : Oracles :=
  { classify := fun _ => (Intent.CHIT_CHAT, 1),
    embed := fun _ => .error (),
    search := fun _ _ _ => .error (),
    generate := fun _ => .error (),
    generateShort := fun _ => .ok "llm reply".toList,
    histFetch := fun _ _ => .ok [("user".toList, "want a demo?".toList)],
    histFormat := fun _ => .error (),
    needsPlanning := fun _ _ => .ok false,
    planResponse := .error (),
    verdictAt := fun _ => defaultVerdict,
    retryAt := fun _ =>
      { response := [], sources := [], context_found := false, intent := none,
        conversational := none, planned := none, validation := none,
        error := false },
    randIdx := 0 }

/-- Oracles for the C9 witness: history fetch and formatting succeed, the
bounded LLM call raises. -/
def cexOraclesGenFail : Oracles :=
  { cexOraclesFmtFail with
    histFormat := fun _ => .ok "User: want a demo?".toList,
    generateShort := fun _ => .error () }

/-! # Theorems -/

/-! ## Claim C1: UNCLEAR clarification-category priority -/

/-- C1 counterexample: a query containing keywords of both the email group
and the pricing group receives "pricing", not the claimed highest-priority
"email" — the source's later keyword loops overwrite the earlier ones. -/
theorem C1_counterexample :
    clarification_key "email pricing".toList ≠
      clarificationKeySpecOrder "email pricing".toList ∧
    clarificationKeySpecOrder "email pricing".toList = "email".toList ∧
    clarification_key "email pricing".toList = "pricing".toList := by
  refine ⟨?_, by decide, by decide⟩
  decide

/-- C1 amended: the UNCLEAR branch selects the clarification category by
keyword match with the LAST matching group winning, i.e. in the effective
priority order hours > services > contact > pricing > email, falling to
"default" when no keyword matches. -/
theorem C1_amended_last_match_wins (q : List Char) :
    clarification_key q =
      (let ql := trimL (lowerL q)
       if hoursKeywords.any (fun w => hasSub w ql) then "hours".toList
       else if servicesKeywords.any (fun w => hasSub w ql) then "services".toList
       else if contactKeywords.any (fun w => hasSub w ql) then "contact".toList
       else if pricingKeywords.any (fun w => hasSub w ql) then "pricing".toList
       else if emailKeywords.any (fun w => hasSub w ql) then "email".toList
       else "default".toList) := rfl

/-! ## Claim C2: retry parameter application -/

/-- C2 counterexample: with the process-wide settings configured as
`RAG_TOP_K = 3`, an adjustment text matching none of the known phrases makes
the retry run with `top_k = 5` (the hard-coded `new_top_k` initial value),
not with the original attempt's `top_k = 3`. -/
theorem C2_counterexample :
    (retryRunSettings "please try again".toList (mkRat 2 5)).RAG_TOP_K ≠
      (Settings.mk (mkRat 2 5) 3).RAG_TOP_K := by
  decide

/-- C2 amended: `retry_with_adjustment` temporarily overwrites the
process-wide settings with `retryRunSettings` for the duration of the inner
`get_rag_response` call and restores the originals afterwards (second
component); an unmatched adjustment retries with the original threshold but
with `top_k` forced to the literal `5`, which coincides with the original
attempt's parameters only when the configured `RAG_TOP_K` is `5`. -/
theorem C2_amended_retry_settings {α : Type}
    (rag : List Char → Option (List Char) → Bool → Settings → ℕ → α)
    (s : Settings) (q adj : List Char) (thr : ℚ)
    (hunmatched :
      (hasSub "lower threshold".toList (lowerL adj) ||
       hasSub "expand search".toList (lowerL adj) ||
       hasSub "more documents".toList (lowerL adj) ||
       hasSub "increase top_k".toList (lowerL adj) ||
       hasSub "rephrase".toList (lowerL adj)) = false) :
    (retry_with_adjustment rag s q adj thr).1 =
      rag q none false (retryRunSettings adj thr) 2 ∧
    (retry_with_adjustment rag s q adj thr).2 = s ∧
    retryRunSettings adj thr = Settings.mk thr 5 := by
  simp only [Bool.or_eq_false_iff] at hunmatched
  obtain ⟨⟨⟨⟨h1, h2⟩, h3⟩, h4⟩, h5⟩ := hunmatched
  refine ⟨rfl, rfl, ?_⟩
  unfold retryRunSettings adjustParams
  simp only [h1, h2, h3, h4, h5]
  simp

/-- C2 witness. -/
theorem C2_amended_retry_settings_witness :
    (retry_with_adjustment (fun _ _ _ _ _ => (0 : ℕ))
        (Settings.mk (mkRat 1 2) 5) "q".toList "no suggestion".toList
        (mkRat 1 2)).2 = Settings.mk (mkRat 1 2) 5 ∧
    retryRunSettings "no suggestion".toList (mkRat 1 2) =
      Settings.mk (mkRat 1 2) 5 := by
  have h := C2_amended_retry_settings (fun _ _ _ _ _ => (0 : ℕ))
    (Settings.mk (mkRat 1 2) 5) "q".toList "no suggestion".toList
    (mkRat 1 2) (by decide)
  exact ⟨h.2.1, h.2.2⟩

/-! ## Claim C3: the validation retry loop is bounded -/

/-- The loop's retry counter never exceeds `max rc maxRetries`. -/
theorem retryLoopAux_le {α : Type} (verdictAt : ℕ → Verdict) (retryAt : ℕ → α)
    (maxRetries : ℕ) :
    ∀ (budget rc : ℕ) (v : Verdict) (p : α),
      (retryLoopAux verdictAt retryAt maxRetries budget rc v p).1 ≤ max rc maxRetries := by
  intro budget
  induction budget with
  | zero => intro rc v p; exact le_max_left _ _
  | succ b ih =>
    intro rc v p
    unfold retryLoopAux
    split_ifs with h
    · calc (retryLoopAux verdictAt retryAt maxRetries b (rc + 1)
            (verdictAt (rc + 1)) (retryAt (rc + 1))).1
          ≤ max (rc + 1) maxRetries := ih _ _ _
        _ ≤ max rc maxRetries := by
            have hle : rc + 1 ≤ maxRetries := h.2.2
            rw [max_eq_right hle, max_eq_right (Nat.le_of_succ_le hle)]
    · exact le_max_left _ _

/-- C3: the retry loop performs at most `maxRetries` retries, hence
terminates within `maxRetries + 1` validation rounds; and with
`max_retries = 2` and a validator that always reports
`is_valid=false, retry_recommended=true`, exactly 2 retries happen and the
round-2 response and verdict are returned regardless of the third verdict's
validity. -/
theorem C3_retry_loop_bounded {α : Type} (verdictAt : ℕ → Verdict)
    (retryAt : ℕ → α) (maxRetries : ℕ) :
    (validationRetryLoop verdictAt retryAt maxRetries).1 ≤ maxRetries ∧
    (validationRetryLoop verdictAt retryAt maxRetries).1 + 1 ≤ maxRetries + 1 ∧
    ((∀ n, (verdictAt n).is_valid = false ∧ (verdictAt n).retry_recommended = true) →
      validationRetryLoop verdictAt retryAt 2 = (2, verdictAt 2, retryAt 2)) := by
  refine ⟨?_, ?_, ?_⟩
  · have h := retryLoopAux_le verdictAt retryAt maxRetries maxRetries 0
      (verdictAt 0) (retryAt 0)
    simpa [validationRetryLoop] using h
  · have h := retryLoopAux_le verdictAt retryAt maxRetries maxRetries 0
      (verdictAt 0) (retryAt 0)
    have h2 : (validationRetryLoop verdictAt retryAt maxRetries).1 ≤ maxRetries := by
      simpa [validationRetryLoop] using h
    omega
  · intro hbad
    unfold validationRetryLoop retryLoopAux
    rw [if_pos ⟨(hbad 0).1, (hbad 0).2, by norm_num⟩]
    unfold retryLoopAux
    rw [if_pos ⟨(hbad 1).1, (hbad 1).2, by norm_num⟩]
    rfl

/-- C3 witness. -/
theorem C3_retry_loop_bounded_witness :
    (validationRetryLoop (fun _ => Verdict.mk false 1 [] true [])
        (fun k => k) 2).1 ≤ 2 ∧
    validationRetryLoop (fun _ => Verdict.mk false 1 [] true []) (fun k => k) 2 =
      (2, Verdict.mk false 1 [] true [], 2) := by
  have h := C3_retry_loop_bounded (fun _ => Verdict.mk false 1 [] true [])
    (fun k => k) 2
  exact ⟨h.1, h.2.2 (fun _ => ⟨rfl, rfl⟩)⟩

/-! ## Claim C4: fail-open parsing of the validator output -/

/-- `parseLine` demotes `is_valid` exactly on the lines `demotesLine`
recognizes as carrying a negative signal. -/
theorem parseLine_is_valid (r : Verdict) (l : List Char) :
    (parseLine r l).is_valid = (r.is_valid && !demotesLine l) := by
  unfold parseLine demotesLine parsedConfidence
  dsimp only
  split_ifs <;>
    first
      | (simp_all; done)
      | (cases hm : firstNumToken (trimL l) with
         | none => simp
         | some tok =>
           cases hp : pyFloatOfToken tok with
           | none => simp [hp]
           | some c =>
             by_cases hc : c < mkRat 7 10 <;> simp [hp, hc])

theorem foldl_parseLine_is_valid (ls : List (List Char)) (r : Verdict) :
    (ls.foldl parseLine r).is_valid = (r.is_valid && ls.all (fun l => !demotesLine l)) := by
  induction ls generalizing r with
  | nil => simp
  | cons l ls ih =>
    simp only [List.foldl_cons, List.all_cons, ih, parseLine_is_valid,
      Bool.and_assoc]

theorem parseLine_unrecognized (r : Verdict) (l : List Char)
    (h : recognizedLine l = false) : parseLine r l = r := by
  unfold recognizedLine at h
  dsimp only at h
  simp only [Bool.or_eq_false_iff] at h
  obtain ⟨⟨⟨⟨⟨h1, h2⟩, h3⟩, h4⟩, h5⟩, h6⟩ := h
  unfold parseLine
  dsimp only
  simp_all

theorem foldl_parseLine_unrecognized (ls : List (List Char)) (r : Verdict)
    (h : ∀ l ∈ ls, recognizedLine l = false) : ls.foldl parseLine r = r := by
  induction ls generalizing r with
  | nil => rfl
  | cons l ls ih =>
    rw [List.foldl_cons, parseLine_unrecognized r l (h l (by simp))]
    exact ih r (fun x hx => h x (by simp [hx]))

/-- C4: `parse_validation_response` starts from the permissive defaults and
demotes the verdict to invalid exactly when some line carries a specific
negative signal (ANSWERS_QUESTION without "yes", IS_GROUNDED without "yes",
HAS_HALLUCINATION with "yes", or a parsed CONFIDENCE below 0.7); text in
which no protocol field is recognized yields the default verdict, in
particular `is_valid = true` and `confidence = 1.0`. -/
theorem C4_parse_fail_open (text : List Char) :
    ((parse_validation_response text).is_valid = false ↔
      ∃ l ∈ splitNL (trimL text), demotesLine l = true) ∧
    ((∀ l ∈ splitNL (trimL text), recognizedLine l = false) →
      parse_validation_response text = defaultVerdict) := by
  constructor
  · unfold parse_validation_response
    rw [foldl_parseLine_is_valid]
    simp [defaultVerdict]
  · intro h
    unfold parse_validation_response
    exact foldl_parseLine_unrecognized _ _ h

/-- C4 witness: the malformed output of the source's own test suite. -/
theorem C4_parse_fail_open_witness :
    parse_validation_response "This is not the expected format at all!".toList =
      defaultVerdict :=
  (C4_parse_fail_open "This is not the expected format at all!".toList).2
    (by decide)

/-! ## Claim C8: range of the parsed confidence -/

/-- C8 counterexample: a numeric token above 1 after `CONFIDENCE:` is stored
unclamped, so the verdict's confidence leaves the `[0, 1]` range of the
ValidationVerdict data model. -/
theorem C8_counterexample :
    (parse_validation_response "CONFIDENCE: 5".toList).confidence = mkRat 5 1 ∧
    ¬(parse_validation_response "CONFIDENCE: 5".toList).confidence ≤ 1 := by
  constructor <;> decide

theorem mkRat_nonneg_of_nonneg (a : ℤ) (b : ℕ) (h : 0 ≤ a) : 0 ≤ mkRat a b := by
  rw [Rat.mkRat_eq_div]
  positivity

theorem pyFloatOfToken_nonneg (t : List Char) (c : ℚ)
    (h : pyFloatOfToken t = some c) : 0 ≤ c := by
  unfold pyFloatOfToken at h
  dsimp only at h
  split at h
  · split at h
    · exact absurd h (by simp)
    · simp only [Option.some.injEq] at h
      subst h
      exact mkRat_nonneg_of_nonneg _ _ (Int.ofNat_nonneg _)
  · split at h
    · simp only [Option.some.injEq] at h
      subst h
      refine mkRat_nonneg_of_nonneg _ _ ?_
      positivity
    · exact absurd h (by simp)

theorem parseLine_confidence_nonneg (r : Verdict) (l : List Char)
    (h : 0 ≤ r.confidence) : 0 ≤ (parseLine r l).confidence := by
  unfold parseLine
  dsimp only
  split_ifs <;>
    first
      | simpa
      | (cases hm : firstNumToken (trimL l) with
         | none => simpa
         | some tok =>
           cases hp : pyFloatOfToken tok with
           | none => simpa [hp]
           | some c =>
             have := pyFloatOfToken_nonneg tok c hp
             by_cases hc : c < mkRat 7 10 <;> simpa [hp, hc])

/-- C8 amended: the parsed confidence is always nonnegative (the token
pattern `[\d.]+` admits no sign), but the upper bound 1 is not enforced: the
parsed value is stored unclamped, so confidence lies in `[0, 1]` only when
the numeric token itself is at most 1. -/
theorem C8_amended_confidence_nonneg (text : List Char) :
    0 ≤ (parse_validation_response text).confidence := by
  unfold parse_validation_response
  generalize splitNL (trimL text) = ls
  have h0 : 0 ≤ defaultVerdict.confidence := by decide
  generalize defaultVerdict = r at h0 ⊢
  induction ls generalizing r with
  | nil => simpa
  | cons l ls ih =>
    rw [List.foldl_cons]
    exact ih _ (parseLine_confidence_nonneg r l h0)

/-! ## Claim C5: threshold safety bands -/

theorem applyOne_unparseable (t : Thresholds) (p txt : List Char)
    (h : parseSuggested txt = none) : applyOneAdjustment t (p, txt) = t := by
  unfold applyOneAdjustment
  simp [h]

/-- One adjustment step leaves each of the four parameters unchanged or
commits a value inside its safety band. -/
theorem applyOne_bands (t : Thresholds) (e : List Char × List Char) :
    ((applyOneAdjustment t e).similarity_threshold = t.similarity_threshold ∨
      (mkRat 3 10 ≤ (applyOneAdjustment t e).similarity_threshold ∧
        (applyOneAdjustment t e).similarity_threshold ≤ mkRat 4 5)) ∧
    ((applyOneAdjustment t e).top_k = t.top_k ∨
      (∃ n : ℤ, (applyOneAdjustment t e).top_k = (n : ℚ) ∧ 3 ≤ n ∧ n ≤ 10)) ∧
    ((applyOneAdjustment t e).temperature = t.temperature ∨
      (mkRat 3 10 ≤ (applyOneAdjustment t e).temperature ∧
        (applyOneAdjustment t e).temperature ≤ 1)) ∧
    ((applyOneAdjustment t e).validation_confidence = t.validation_confidence ∨
      (mkRat 1 2 ≤ (applyOneAdjustment t e).validation_confidence ∧
        (applyOneAdjustment t e).validation_confidence ≤ mkRat 9 10)) := by
  unfold applyOneAdjustment
  cases hp : parseSuggested e.2 with
  | none => simp
  | some v =>
    unfold setParam clampFor
    split_ifs with h1 h2 h3 h4
    · refine ⟨Or.inr ⟨le_max_left _ _, max_le (by decide) (min_le_left _ _)⟩,
        Or.inl rfl, Or.inl rfl, Or.inl rfl⟩
    · refine ⟨Or.inl rfl, Or.inr ⟨⌊max 3 (min 10 v)⌋, rfl, ?_, ?_⟩,
        Or.inl rfl, Or.inl rfl⟩
      · exact Int.le_floor.mpr (by exact_mod_cast le_max_left (3 : ℚ) (min 10 v))
      · have hw : max (3 : ℚ) (min 10 v) ≤ 10 :=
          max_le (by norm_num) (min_le_left _ _)
        have := Int.floor_le_floor hw
        simpa using this
    · refine ⟨Or.inl rfl, Or.inl rfl,
        Or.inr ⟨le_max_left _ _, max_le (by decide) (min_le_left _ _)⟩,
        Or.inl rfl⟩
    · refine ⟨Or.inl rfl, Or.inl rfl, Or.inl rfl,
        Or.inr ⟨le_max_left _ _, max_le (by decide) (min_le_left _ _)⟩⟩
    · exact ⟨Or.inl rfl, Or.inl rfl, Or.inl rfl, Or.inl rfl⟩

/-- C5: however the learning job's suggested values read — out of range,
negative, fractional — `apply_threshold_adjustments` only ever commits, for
each of the four parameters, a value inside its declared safety band
(similarity_threshold in [0.3, 0.8], top_k an integer in [3, 10], temperature
in [0.3, 1.0], validation_confidence in [0.5, 0.9]); a parameter whose
adjustment text is unparseable is left unchanged. -/
theorem C5_threshold_safety_bands (adjustments : List (List Char × List Char))
    (t : Thresholds) :
    ((apply_threshold_adjustments adjustments t).similarity_threshold =
        t.similarity_threshold ∨
      (mkRat 3 10 ≤ (apply_threshold_adjustments adjustments t).similarity_threshold ∧
        (apply_threshold_adjustments adjustments t).similarity_threshold ≤ mkRat 4 5)) ∧
    ((apply_threshold_adjustments adjustments t).top_k = t.top_k ∨
      (∃ n : ℤ, (apply_threshold_adjustments adjustments t).top_k = (n : ℚ) ∧
        3 ≤ n ∧ n ≤ 10)) ∧
    ((apply_threshold_adjustments adjustments t).temperature = t.temperature ∨
      (mkRat 3 10 ≤ (apply_threshold_adjustments adjustments t).temperature ∧
        (apply_threshold_adjustments adjustments t).temperature ≤ 1)) ∧
    ((apply_threshold_adjustments adjustments t).validation_confidence =
        t.validation_confidence ∨
      (mkRat 1 2 ≤ (apply_threshold_adjustments adjustments t).validation_confidence ∧
        (apply_threshold_adjustments adjustments t).validation_confidence ≤ mkRat 9 10)) ∧
    (∀ p txt, parseSuggested txt = none →
      apply_threshold_adjustments [(p, txt)] t = t) := by
  refine ⟨?_, ?_, ?_, ?_, fun p txt h => applyOne_unparseable t p txt h⟩ <;>
  · induction adjustments generalizing t with
    | nil => exact Or.inl rfl
    | cons e rest ih =>
      unfold apply_threshold_adjustments at ih ⊢
      rw [List.foldl_cons]
      rcases ih (applyOneAdjustment t e) with h | h
      · rw [h]
        first
          | exact (applyOne_bands t e).1
          | exact (applyOne_bands t e).2.1
          | exact (applyOne_bands t e).2.2.1
          | exact (applyOne_bands t e).2.2.2
      · exact Or.inr h

/-- C5 witness. -/
theorem C5_threshold_safety_bands_witness :
    apply_threshold_adjustments
      [("similarity_threshold".toList, "just make it bigger".toList)]
      CURRENT_THRESHOLDS = CURRENT_THRESHOLDS :=
  (C5_threshold_safety_bands [] CURRENT_THRESHOLDS).2.2.2.2
    "similarity_threshold".toList "just make it bigger".toList (by decide)

/-! ## Claim C6: re-ranking bounds, order and truncation -/

theorem capStage (x : ℚ) (b : Bool) (c : ℚ) (h0 : 0 ≤ x) (h1 : x ≤ 1)
    (hc : 1 ≤ c) :
    x ≤ (if b then min 1 (x * c) else x) ∧
    0 ≤ (if b then min 1 (x * c) else x) ∧
    (if b then min 1 (x * c) else x) ≤ 1 := by
  cases b with
  | false => simp [h0, h1]
  | true =>
    exact ⟨le_min h1 (le_mul_of_one_le_right h0 hc),
      le_min (by norm_num) (mul_nonneg h0 (le_trans zero_le_one hc)),
      min_le_left _ _⟩

theorem boost3 (x : ℚ) (b1 b2 b3 : Bool) (h0 : 0 ≤ x) (h1 : x ≤ 1) :
    x ≤ (let s1 := if b1 then min 1 (x * mkRat 3 2) else x
         let s2 := if b2 then min 1 (s1 * mkRat 13 10) else s1
         if b3 then min 1 (s2 * mkRat 8 5) else s2) ∧
    0 ≤ (let s1 := if b1 then min 1 (x * mkRat 3 2) else x
         let s2 := if b2 then min 1 (s1 * mkRat 13 10) else s1
         if b3 then min 1 (s2 * mkRat 8 5) else s2) ∧
    (let s1 := if b1 then min 1 (x * mkRat 3 2) else x
     let s2 := if b2 then min 1 (s1 * mkRat 13 10) else s1
     if b3 then min 1 (s2 * mkRat 8 5) else s2) ≤ 1 := by
  dsimp only
  obtain ⟨a1, a2, a3⟩ := capStage x b1 (mkRat 3 2) h0 h1 (by decide)
  obtain ⟨d1, d2, d3⟩ := capStage _ b2 (mkRat 13 10) a2 a3 (by decide)
  obtain ⟨e1, e2, e3⟩ := capStage _ b3 (mkRat 8 5) d2 d3 (by decide)
  exact ⟨le_trans (le_trans a1 d1) e1, e2, e3⟩

/-- Each capped boost only raises a similarity that starts in `[0, 1]`, and
never above `1`. -/
theorem boostDoc_sim_bounds (nE nP nL : Bool) (d : Doc) (h0 : 0 ≤ d.similarity)
    (h1 : d.similarity ≤ 1) :
    d.similarity ≤ (boostDoc nE nP nL d).similarity ∧
    0 ≤ (boostDoc nE nP nL d).similarity ∧
    (boostDoc nE nP nL d).similarity ≤ 1 := by
  unfold boostDoc
  dsimp only
  exact boost3 d.similarity _ _ _ h0 h1

theorem rerank_sorted (nE nP nL : Bool) (topK : ℕ) (docs : List Doc) :
    List.Sorted simDesc (rerankDocs nE nP nL topK docs) := by
  unfold rerankDocs
  exact List.Pairwise.sublist (List.take_sublist _ _)
    (List.sorted_insertionSort simDesc _)

theorem rerank_mem (nE nP nL : Bool) (topK : ℕ) (docs : List Doc) (d : Doc)
    (hd : d ∈ rerankDocs nE nP nL topK docs) :
    ∃ d0 ∈ docs, d = boostDoc nE nP nL d0 := by
  unfold rerankDocs at hd
  have h1 : d ∈ List.insertionSort simDesc
      (docs.map (boostDoc nE nP nL)) := List.take_subset _ _ hd
  have h2 : d ∈ docs.map (boostDoc nE nP nL) :=
    (List.perm_insertionSort simDesc _).mem_iff.mp h1
  obtain ⟨d0, hd0, hb⟩ := List.mem_map.mp h2
  exact ⟨d0, hd0, hb.symm⟩

/-- C6: for original similarities within `[0, 1]`, re-ranking (boost → stable
descending sort → truncation to the un-doubled top_k) never produces a
similarity above `1.0`, never places a snippet after one with strictly lower
original similarity when the former stayed unboosted, and returns at most
`topK` snippets. -/
theorem C6_rerank_properties (nE nP nL : Bool) (topK : ℕ) (docs : List Doc)
    (hsim : ∀ d ∈ docs, 0 ≤ d.similarity ∧ d.similarity ≤ 1) :
    (∀ d ∈ rerankDocs nE nP nL topK docs, d.similarity ≤ 1) ∧
    (rerankDocs nE nP nL topK docs).length ≤ topK ∧
    (∀ (i j : ℕ) (hi : i < (rerankDocs nE nP nL topK docs).length)
      (hj : j < (rerankDocs nE nP nL topK docs).length), i < j →
      ∀ dx dy : Doc, dx ∈ docs → dy ∈ docs →
      (rerankDocs nE nP nL topK docs).get ⟨i, hi⟩ = boostDoc nE nP nL dy →
      (rerankDocs nE nP nL topK docs).get ⟨j, hj⟩ = boostDoc nE nP nL dx →
      boostDoc nE nP nL dy = dy →
      dx.similarity ≤ dy.similarity) := by
  refine ⟨?_, ?_, ?_⟩
  · intro d hd
    obtain ⟨d0, hd0, rfl⟩ := rerank_mem nE nP nL topK docs d hd
    exact (boostDoc_sim_bounds nE nP nL d0 (hsim d0 hd0).1 (hsim d0 hd0).2).2.2
  · unfold rerankDocs
    rw [List.length_take]
    exact min_le_left _ _
  · intro i j hi hj hij dx dy hdx hdy hgi hgj hnb
    have hsorted := rerank_sorted nE nP nL topK docs
    have hrel : simDesc ((rerankDocs nE nP nL topK docs).get ⟨i, hi⟩)
        ((rerankDocs nE nP nL topK docs).get ⟨j, hj⟩) :=
      hsorted.rel_get_of_lt (by exact hij)
    rw [hgi, hgj] at hrel
    unfold simDesc at hrel
    have hx := boostDoc_sim_bounds nE nP nL dx (hsim dx hdx).1 (hsim dx hdx).2
    calc dx.similarity ≤ (boostDoc nE nP nL dx).similarity := hx.1
      _ ≤ (boostDoc nE nP nL dy).similarity := hrel
      _ = dy.similarity := by rw [hnb]

/-- C6 witness. -/
theorem C6_rerank_properties_witness :
    (rerankDocs true false false 5
      [Doc.mk "d1".toList "write to info@githaf.com".toList (mkRat 1 2)]).length ≤ 5 :=
  (C6_rerank_properties true false false 5
    [Doc.mk "d1".toList "write to info@githaf.com".toList (mkRat 1 2)]
    (by intro d hd; simp at hd; subst hd; constructor <;> decide)).2.1

/-! ## Claim C9: chit-chat escalation failure handling -/

/-- C9 counterexample: the session holds a (nonempty) conversation history,
but formatting it for the LLM raises; `get_conversational_response`
propagates the exception instead of answering with a CHIT_CHAT template
(the top-level handler of `get_rag_response` then produces the generic
fallback apology, not a CHIT_CHAT template). -/
theorem C9_counterexample :
    cexOraclesFmtFail.histFetch "s1".toList 3 =
      .ok [("user".toList, "want a demo?".toList)] ∧
    get_conversational_response cexPrompts cexOraclesFmtFail Intent.CHIT_CHAT
      "yes".toList (some "s1".toList) = .error () := ⟨rfl, rfl⟩

/-- A short affirmation token matches none of the specific chit-chat
patterns. -/
theorem affirm_no_patterns (ql : List Char) (h : ql ∈ affirmations) :
    hasSub "how are you".toList ql = false ∧ hasSub "how r u".toList ql = false ∧
    hasSub "your name".toList ql = false ∧ hasSub "who are you".toList ql = false ∧
    hasSub "what are you".toList ql = false ∧ hasSub "bot".toList ql = false ∧
    hasSub "robot".toList ql = false ∧ hasSub "ai".toList ql = false := by
  fin_cases h <;> decide

theorem choice_mem (l : List (List Char)) (i : ℕ) (h : l ≠ []) :
    choice l i ∈ l := by
  unfold choice
  have hlt : i % l.length < l.length := Nat.mod_lt _ (List.length_pos.mpr h)
  rw [List.getD_eq_getElem?_getD, List.getElem?_eq_getElem hlt]
  exact List.getElem_mem hlt

/-- C9 amended: for a short affirmation with a session and nonempty history,
only a failure of the bounded LLM call falls back to the generic CHIT_CHAT
template; failures of the history fetch or of the history formatting
propagate out of `get_conversational_response` (and are then turned into the
generic fallback response by `get_rag_response`'s top-level handler). -/
theorem C9_amended_escalation_failures (P : Prompts) (o : Oracles)
    (q : List Char) (sid : List Char)
    (haff : trimL (lowerL q) ∈ affirmations) :
    (o.histFetch sid 3 = .error () →
      get_conversational_response P o Intent.CHIT_CHAT q (some sid) = .error ()) ∧
    (∀ hl, o.histFetch sid 3 = .ok hl → 0 < hl.length →
      o.histFormat hl = .error () →
      get_conversational_response P o Intent.CHIT_CHAT q (some sid) = .error ()) ∧
    (∀ hl ht, o.histFetch sid 3 = .ok hl → 0 < hl.length →
      o.histFormat hl = .ok ht →
      o.generateShort (P.convCtxFmt q ht) = .error () →
      get_conversational_response P o Intent.CHIT_CHAT q (some sid) =
        .ok (conversationalDict Intent.CHIT_CHAT (choice P.ccDefault o.randIdx)) ∧
      (P.ccDefault ≠ [] → choice P.ccDefault o.randIdx ∈ P.ccDefault)) := by
  obtain ⟨p1, p2, p3, p4, p5, p6, p7, p8⟩ := affirm_no_patterns _ haff
  unfold get_conversational_response chitChatResponse
  dsimp only
  rw [p1, p2, p3, p4, p5, p6, p7, p8]
  simp only [Bool.or_self, Bool.false_eq_true, if_false, Option.isSome_some,
    true_and, haff, if_true, Option.getD_some]
  refine ⟨?_, ?_, ?_⟩
  · intro hf
    rw [hf]
  · intro hl hf hlen hfmt
    rw [hf]
    dsimp only
    rw [if_pos hlen, hfmt]
  · intro hl ht hf hlen hfmt hgen
    rw [hf]
    dsimp only
    rw [if_pos hlen, hfmt]
    dsimp only
    rw [hgen]
    exact ⟨rfl, fun hne => choice_mem _ _ hne⟩

/-- C9 witness. -/
theorem C9_amended_escalation_failures_witness :
    get_conversational_response cexPrompts cexOraclesGenFail Intent.CHIT_CHAT
      "ok".toList (some "s1".toList) =
      .ok (conversationalDict Intent.CHIT_CHAT
        (choice cexPrompts.ccDefault 0)) ∧
    choice cexPrompts.ccDefault 0 ∈ cexPrompts.ccDefault := by
  have h := (C9_amended_escalation_failures cexPrompts cexOraclesGenFail
    "ok".toList "s1".toList (by decide)).2.2
    [("user".toList, "want a demo?".toList)] "User: want a demo?".toList
    rfl (by decide) rfl rfl
  exact ⟨h.1, h.2 (by decide)⟩

/-! ## Claim C10: retries re-run the full pipeline without history -/

theorem conv_intent (P : Prompts) (o : Oracles) (i : Intent) (qq : List Char)
    (sid : Option (List Char)) (d : RagDict)
    (h : get_conversational_response P o i qq sid = .ok d) :
    d.intent = some i.value := by
  unfold get_conversational_response at h
  cases i <;> dsimp only at h <;> try split at h
  all_goals
    first
      | (simp only [Except.ok.injEq] at h; subst h; rfl)
      | simp at h

theorem ragCore_intent (P : Prompts) (o : Oracles) (s : Settings)
    (q : List Char) (sid : Option (List Char)) (ih : Bool) (mr : ℕ)
    (d : RagDict) (h : ragCore P o s q sid ih mr = .ok d) :
    d.intent = some ((o.classify (preprocess_query q)).1).value := by
  unfold ragCore at h
  dsimp only at h
  repeat
    first
      | exact conv_intent P o ((o.classify (preprocess_query q)).1)
          (preprocess_query q) sid d h
      | (simp only [Except.ok.injEq] at h; subst h; rfl)
      | (simp at h)
      | split at h

/-- C10: every validation-triggered retry re-enters the full pipeline:
`retry_with_adjustment` invokes `get_rag_response` with `session_id = None`
and `include_history = False` (and the default retry budget 2) under the
adjusted settings; with `include_history = False` the pipeline always uses
the fixed "No previous conversation." history text, whatever session id the
original request had; and the pipeline re-runs preprocessing and intent
classification from scratch — the intent it reports is always the
classification of the freshly preprocessed query. -/
theorem C10_retry_reruns_pipeline {α : Type}
    (rag : List Char → Option (List Char) → Bool → Settings → ℕ → α)
    (s : Settings) (q adj : List Char) (thr : ℚ) :
    (retry_with_adjustment rag s q adj thr).1 =
      rag q none false (retryRunSettings adj thr) 2 ∧
    (∀ (o : Oracles) (sid : Option (List Char)),
      historyTextFor o false sid = .ok "No previous conversation.".toList) ∧
    (∀ (P : Prompts) (o : Oracles) (s2 : Settings) (q2 : List Char)
      (sid : Option (List Char)) (ih : Bool) (mr : ℕ),
      ((get_rag_response P o s2 q2 sid ih mr).intent).getD
          ((o.classify (preprocess_query q2)).1).value =
        ((o.classify (preprocess_query q2)).1).value) := by
  refine ⟨rfl, fun o sid => rfl, ?_⟩
  intro P o s2 q2 sid ih mr
  unfold get_rag_response
  cases hc : ragCore P o s2 q2 sid ih mr with
  | error e => rfl
  | ok d => rw [ragCore_intent P o s2 q2 sid ih mr d hc, Option.getD_some]

/-! ## Claim C7: idempotence of `preprocess_query` -/

theorem charOfNat_toNat (n : ℕ) (h : n < 55296) : (Char.ofNat n).toNat = n := by
  have hv : n.isValidChar := Or.inl h
  rw [Char.ofNat, dif_pos hv]
  simp [Char.ofNatAux, Char.toNat, UInt32.toNat]

theorem char_toNat_lt (c : Char) : c.toNat < 1114112 := by
  rcases c.valid with h | h
  · exact lt_trans h (by norm_num)
  · exact h.2

theorem char_eq_iff_toNat (c d : Char) : c = d ↔ c.toNat = d.toNat := by
  constructor
  · intro h
    rw [h]
  · intro h
    exact Char.ext (UInt32.ext h)

theorem isWordChar_toNat (c : Char) :
    isWordChar c = true ↔
      (48 ≤ c.toNat ∧ c.toNat ≤ 57) ∨ (65 ≤ c.toNat ∧ c.toNat ≤ 90) ∨
        (97 ≤ c.toNat ∧ c.toNat ≤ 122) ∨ c.toNat = 95 := by
  unfold isWordChar Char.isAlphanum Char.isAlpha Char.isUpper Char.isLower
    Char.isDigit
  simp only [Bool.or_eq_true, Bool.and_eq_true, decide_eq_true_eq,
    char_eq_iff_toNat, show ('_').toNat = 95 from by decide]
  constructor
  · rintro (((⟨h1, h2⟩ | ⟨h1, h2⟩) | ⟨h1, h2⟩) | h)
    · exact Or.inr (Or.inl ⟨h1, h2⟩)
    · exact Or.inr (Or.inr (Or.inl ⟨h1, h2⟩))
    · exact Or.inl ⟨h1, h2⟩
    · exact Or.inr (Or.inr (Or.inr h))
  · rintro (⟨h1, h2⟩ | (⟨h1, h2⟩ | (⟨h1, h2⟩ | h)))
    · exact Or.inl (Or.inr ⟨h1, h2⟩)
    · exact Or.inl (Or.inl (Or.inl ⟨h1, h2⟩))
    · exact Or.inl (Or.inl (Or.inr ⟨h1, h2⟩))
    · exact Or.inr h

theorem toNat_toLower (c : Char) :
    c.toLower.toNat =
      (if 65 ≤ c.toNat ∧ c.toNat ≤ 90 then c.toNat + 32 else c.toNat) := by
  unfold Char.toLower
  dsimp only
  split
  · rename_i h
    exact charOfNat_toNat _ (by omega)
  · rfl

/-- ASCII case folding preserves the `\w` character class. -/
theorem isWordChar_toLower (c : Char) :
    isWordChar c.toLower = isWordChar c := by
  rcases hw : isWordChar c with _ | _ <;>
    rcases hw2 : isWordChar c.toLower with _ | _ <;> try rfl
  · exfalso
    have h2 := (isWordChar_toNat c.toLower).mp hw2
    rw [toNat_toLower] at h2
    have h1 : ¬((48 ≤ c.toNat ∧ c.toNat ≤ 57) ∨ (65 ≤ c.toNat ∧ c.toNat ≤ 90) ∨
        (97 ≤ c.toNat ∧ c.toNat ≤ 122) ∨ c.toNat = 95) := by
      intro hcon
      rw [(isWordChar_toNat c).mpr hcon] at hw
      cases hw
    split at h2 <;> omega
  · exfalso
    have h1 := (isWordChar_toNat c).mp hw
    have h2 : ¬((48 ≤ c.toLower.toNat ∧ c.toLower.toNat ≤ 57) ∨
        (65 ≤ c.toLower.toNat ∧ c.toLower.toNat ≤ 90) ∨
        (97 ≤ c.toLower.toNat ∧ c.toLower.toNat ≤ 122) ∨
        c.toLower.toNat = 95) := by
      intro hcon
      rw [(isWordChar_toNat c.toLower).mpr hcon] at hw2
      cases hw2
    rw [toNat_toLower] at h2
    split at h2 <;> omega

/-- Case-insensitively equal characters are in the same `\w` class. -/
theorem ciEq_isWordChar (a c : Char) (h : ciEq a c = true) :
    isWordChar a = isWordChar c := by
  unfold ciEq at h
  rw [decide_eq_true_eq] at h
  rw [← isWordChar_toLower a, ← isWordChar_toLower c, h]

/-- Only the dash itself is case-insensitively equal to a dash. -/
theorem ciEq_dash (c : Char) (h : ciEq '-' c = true) : c = '-' := by
  unfold ciEq at h
  rw [decide_eq_true_eq] at h
  have h2 := congrArg Char.toNat h
  rw [toNat_toLower, toNat_toLower,
    show ('-').toNat = 45 from by decide, if_neg (by omega)] at h2
  rw [char_eq_iff_toNat, show ('-').toNat = 45 from by decide]
  split at h2 <;> omega

theorem matchCI_some_append (p : List Char) :
    ∀ s r, matchCI p s = some r → ∃ u, s = u ++ r ∧ u.length = p.length := by
  induction p with
  | nil =>
    intro s r h
    simp only [matchCI, Option.some.injEq] at h
    exact ⟨[], by simp [h]⟩
  | cons a ps ih =>
    intro s r h
    cases s with
    | nil => exact absurd h (by simp [matchCI])
    | cons c cs =>
      unfold matchCI at h
      split at h
      · obtain ⟨u, hu, hl⟩ := ih cs r h
        exact ⟨c :: u, by simp [hu], by simp [hl]⟩
      · exact absurd h (by simp)

theorem tryAlt_some_append (lk : Option (List Char)) (a : Char × List Char)
    (s r : List Char) (h : tryAlt lk a s = some r) :
    (∃ u, s = u ++ r ∧ u.length = a.2.length + 1) ∧ boundaryAfter r = true := by
  cases s with
  | nil => exact absurd h (by simp [tryAlt])
  | cons c cs =>
    simp only [tryAlt] at h
    split at h
    · rename_i hci
      cases hm : matchCI a.2 cs with
      | none => rw [hm] at h; exact absurd h (by simp)
      | some rest =>
        rw [hm] at h
        dsimp only at h
        split at h
        · rename_i hb
          simp only [Option.some.injEq] at h
          subst h
          obtain ⟨u, hu, hl⟩ := matchCI_some_append a.2 cs rest hm
          rw [Bool.and_eq_true] at hb
          exact ⟨⟨c :: u, by simp [hu], by simp [hl]⟩, hb.1⟩
        · exact absurd h (by simp)
    · exact absurd h (by simp)

theorem tryAlts_some_append (lk : Option (List Char)) :
    ∀ (alts : List (Char × List Char)) (s r : List Char),
      tryAlts lk alts s = some r →
      (∃ u, s = u ++ r ∧ 0 < u.length) ∧ boundaryAfter r = true := by
  intro alts
  induction alts with
  | nil => intro s r h; exact absurd h (by simp [tryAlts])
  | cons a as ih =>
    intro s r h
    unfold tryAlts at h
    cases ht : tryAlt lk a s with
    | some rest =>
      rw [ht] at h
      simp only [Option.some.injEq] at h
      subst h
      obtain ⟨⟨u, hu, hl⟩, hb⟩ := tryAlt_some_append lk a s rest ht
      exact ⟨⟨u, hu, by omega⟩, hb⟩
    | none =>
      rw [ht] at h
      exact ih s r h

theorem tryAlts_length (lk : Option (List Char)) (alts : List (Char × List Char))
    (c : Char) (cs r : List Char) (h : tryAlts lk alts (c :: cs) = some r) :
    r.length ≤ cs.length := by
  obtain ⟨⟨u, hu, hl⟩, _⟩ := tryAlts_some_append lk alts (c :: cs) r h
  have := congrArg List.length hu
  simp at this
  omega

theorem prevAfter_cons (p : Bool) (c : Char) (u : List Char) :
    prevAfter p (c :: u) = prevAfter (isWordChar c) u := rfl

theorem scanClean_append (r : SubRule) :
    ∀ (u : List Char) (p : Bool) (v : List Char),
      scanClean r p (u ++ v) =
        (scanCleanSeg r p u v && scanClean r (prevAfter p u) v) := by
  intro u
  induction u with
  | nil => intro p v; simp [scanCleanSeg, prevAfter]
  | cons c cs ih =>
    intro p v
    show scanClean r p (c :: (cs ++ v)) = _
    simp only [scanClean, scanCleanSeg]
    rw [ih (isWordChar c) v, prevAfter_cons]
    simp [Bool.and_assoc]

theorem scanClean_mono (r : SubRule) (s : List Char)
    (h : scanClean r false s = true) : ∀ p, scanClean r p s = true := by
  intro p
  cases p
  · exact h
  · cases s with
    | nil => rfl
    | cons c cs =>
      unfold scanClean at h ⊢
      simp only [Bool.false_or, Bool.and_eq_true] at h
      simp [h.2]

theorem subFuel_id_of_clean (r : SubRule) :
    ∀ (f : ℕ) (p : Bool) (s : List Char), s.length ≤ f →
      scanClean r p s = true → subFuel r f p s = s := by
  intro f
  induction f with
  | zero => intro p s _ _; rfl
  | succ f ih =>
    intro p s hl hc
    cases s with
    | nil => rfl
    | cons c cs =>
      unfold scanClean at hc
      rw [Bool.and_eq_true] at hc
      unfold subFuel
      cases p with
      | true =>
        rw [if_pos rfl]
        rw [ih (isWordChar c) cs (by simpa using hl) hc.2]
      | false =>
        rw [if_neg (by simp)]
        have hnone : tryAlts r.lookA r.alts (c :: cs) = none := by
          have := hc.1
          simp only [Bool.false_or, Option.isNone_iff_eq_none] at this
          exact this
        rw [hnone]
        rw [ih (isWordChar c) cs (by simpa using hl) hc.2]

theorem tryAlt_nonword (lk : Option (List Char)) (a : Char × List Char)
    (c : Char) (cs : List Char) (ha : isWordChar a.1 = true)
    (hc : isWordChar c = false) : tryAlt lk a (c :: cs) = none := by
  have hne : ciEq a.1 c = false := by
    by_contra hcon
    rw [Bool.not_eq_false] at hcon
    rw [ciEq_isWordChar a.1 c hcon, hc] at ha
    cases ha
  simp only [tryAlt, hne]
  simp

theorem tryAlts_nonword (lk : Option (List Char)) :
    ∀ (alts : List (Char × List Char)) (c : Char) (cs : List Char),
      (∀ a ∈ alts, isWordChar a.1 = true) → isWordChar c = false →
      tryAlts lk alts (c :: cs) = none := by
  intro alts
  induction alts with
  | nil => intro c cs _ _; rfl
  | cons a as ih =>
    intro c cs ha hc
    unfold tryAlts
    rw [tryAlt_nonword lk a c cs (ha a (by simp)) hc]
    exact ih c cs (fun x hx => ha x (by simp [hx])) hc

theorem subFuel_nonword_head (j : SubRule)
    (hjw : ∀ a ∈ j.alts, isWordChar a.1 = true) (f : ℕ) (p : Bool) (c : Char)
    (cs : List Char) (hc : isWordChar c = false) :
    subFuel j (f + 1) p (c :: cs) = c :: subFuel j f false cs := by
  conv_lhs => rw [subFuel]
  cases p with
  | true => rw [if_pos rfl, hc]
  | false =>
    rw [if_neg (by simp), tryAlts_nonword j.lookA j.alts c cs hjw hc]
    dsimp only
    rw [hc]

theorem subFuel_nil (j : SubRule) (f : ℕ) (p : Bool) : subFuel j f p [] = [] := by
  cases f <;> rfl

theorem subFuel_cons_true (j : SubRule) (f : ℕ) (c : Char) (cs : List Char) :
    subFuel j (f + 1) true (c :: cs) = c :: subFuel j f (isWordChar c) cs := by
  conv_lhs => rw [subFuel]
  rw [if_pos rfl]

/-- Matching an all-word-character pattern in the prev-word scanning context
commutes with the substitution: either both sides fail, or both succeed, and
the rest of the output is the substitution of the rest of the input. -/
theorem matchCI_subFuel_true (j : SubRule) :
    ∀ (p : List Char), p.all isWordChar = true →
    ∀ (f : ℕ) (X : List Char), X.length ≤ f →
      (matchCI p X = none ∧ matchCI p (subFuel j f true X) = none) ∨
      (∃ r f', matchCI p X = some r ∧ r.length ≤ f' ∧
        matchCI p (subFuel j f true X) = some (subFuel j f' true r)) := by
  intro p
  induction p with
  | nil =>
    intro _ f X hl
    right
    exact ⟨X, f, rfl, hl, rfl⟩
  | cons a ps ih =>
    intro hp f X hl
    rw [List.all_cons, Bool.and_eq_true] at hp
    cases X with
    | nil =>
      left
      rw [subFuel_nil]
      exact ⟨rfl, rfl⟩
    | cons c cs =>
      cases f with
      | zero => simp at hl
      | succ f =>
        rw [subFuel_cons_true]
        by_cases hci : ciEq a c = true
        · have hcw : isWordChar c = true := by
            rw [← ciEq_isWordChar a c hci]
            exact hp.1
          rw [hcw]
          have hm : ∀ Z, matchCI (a :: ps) (c :: Z) = matchCI ps Z := by
            intro Z
            conv_lhs => rw [matchCI]
            rw [if_pos hci]
          rw [hm, hm]
          exact ih hp.2 f cs (by simpa using hl)
        · left
          rw [Bool.not_eq_true] at hci
          constructor <;>
            · conv_lhs => rw [matchCI]
              rw [hci]
              simp

theorem boundaryAfter_subFuel_true (j : SubRule) (f : ℕ) (r : List Char)
    (hl : r.length ≤ f) :
    boundaryAfter (subFuel j f true r) = boundaryAfter r := by
  cases r with
  | nil => rw [subFuel_nil]
  | cons c cs =>
    cases f with
    | zero => simp at hl
    | succ f => rw [subFuel_cons_true]; rfl

theorem wMatchB_subFuel_true (j : SubRule) (p : List Char)
    (hp : p.all isWordChar = true) (f : ℕ) (X : List Char) (hl : X.length ≤ f) :
    wMatchB p (subFuel j f true X) = wMatchB p X := by
  rcases matchCI_subFuel_true j p hp f X hl with ⟨h1, h2⟩ | ⟨r, f', h1, hrl, h2⟩
  · unfold wMatchB
    rw [h1, h2]
  · unfold wMatchB
    rw [h1, h2]
    dsimp only
    rw [boundaryAfter_subFuel_true j f' r hrl]

theorem wMatchB_cons (a : Char) (ps : List Char) (c : Char) (Z : List Char) :
    wMatchB (a :: ps) (c :: Z) =
      (if ciEq a c = true then wMatchB ps Z else false) := by
  unfold wMatchB
  conv_lhs => rw [matchCI]
  split_ifs with h
  · rfl
  · rfl

theorem wMatchB_nil_of_ne (p : List Char) (hpne : p ≠ []) :
    wMatchB p [] = false := by
  cases p with
  | nil => exact absurd rfl hpne
  | cons a ps => rfl

/-- A blocked all-word-pattern match stays blocked on the substituted text,
provided the pattern cannot start inside the replacement. -/
theorem wMatchB_subFuel_false (j : SubRule) (p : List Char)
    (hp : p.all isWordChar = true) (hpne : p ≠ [])
    (hpr : ∀ v, matchCI p (j.repl ++ v) = none) :
    ∀ (f : ℕ) (X : List Char), X.length ≤ f → wMatchB p X = false →
      wMatchB p (subFuel j f false X) = false := by
  intro f X hl h
  cases X with
  | nil =>
    rw [subFuel_nil]
    exact wMatchB_nil_of_ne p hpne
  | cons c cs =>
    cases f with
    | zero => simp at hl
    | succ f =>
      conv_lhs => rw [subFuel]
      rw [if_neg (by simp)]
      cases hta : tryAlts j.lookA j.alts (c :: cs) with
      | some rest =>
        dsimp only
        unfold wMatchB
        rw [hpr (subFuel j f true rest)]
      | none =>
        dsimp only
        cases p with
        | nil => exact absurd rfl hpne
        | cons a ps =>
          rw [wMatchB_cons] at h ⊢
          by_cases hci : ciEq a c = true
          · rw [if_pos hci] at h ⊢
            have hcw : isWordChar c = true := by
              rw [← ciEq_isWordChar a c hci]
              rw [List.all_cons, Bool.and_eq_true] at hp
              exact hp.1
            rw [hcw]
            rw [wMatchB_subFuel_true j ps
              (by rw [List.all_cons, Bool.and_eq_true] at hp; exact hp.2) f cs
              (by simpa using hl)]
            exact h
          · rw [Bool.not_eq_true] at hci
            rw [hci]
            simp

theorem tryAlt_isNone_none_lk (a : Char × List Char) (s : List Char) :
    (tryAlt none a s).isNone = !wMatchB (a.1 :: a.2) s := by
  cases s with
  | nil => rfl
  | cons c cs =>
    rw [wMatchB_cons]
    simp only [tryAlt]
    by_cases hci : ciEq a.1 c = true
    · rw [if_pos hci, if_pos hci]
      cases hm : matchCI a.2 cs with
      | none =>
        unfold wMatchB
        rw [hm]
        rfl
      | some rest =>
        unfold wMatchB
        rw [hm]
        dsimp only [lookOk]
        rw [Bool.and_true]
        by_cases hb : boundaryAfter rest = true
        · rw [if_pos hb, hb]
          rfl
        · rw [Bool.not_eq_true] at hb
          rw [hb]
          simp
    · rw [Bool.not_eq_true] at hci
      rw [hci]
      simp

/-- At a copied position whose first character is shared, an all-word
alternative's verdict is unchanged by the substitution of the tail. -/
theorem altTrans_word (j : SubRule) (a : Char × List Char)
    (haw : (a.1 :: a.2).all isWordChar = true) (f : ℕ) (c : Char)
    (cs : List Char) (hl : cs.length ≤ f) :
    (tryAlt none a (c :: subFuel j f true cs)).isNone =
      (tryAlt none a (c :: cs)).isNone := by
  rw [tryAlt_isNone_none_lk, tryAlt_isNone_none_lk, wMatchB_cons, wMatchB_cons]
  by_cases hci : ciEq a.1 c = true
  · rw [if_pos hci, if_pos hci,
      wMatchB_subFuel_true j a.2
        (by rw [List.all_cons, Bool.and_eq_true] at haw; exact haw.2) f cs hl]
  · rw [Bool.not_eq_true] at hci
    rw [hci]
    simp

theorem ws_not_word (c : Char) (h : c.isWhitespace = true) :
    isWordChar c = false := by
  unfold Char.isWhitespace at h
  simp only [Bool.or_eq_true, decide_eq_true_eq] at h
  rcases h with ((h | h) | h) | h <;> subst h <;> decide

/-- Transfer for the `e-mail` alternative: its verdict at a copied position
stays blocked, provided no replacement can begin with "mail". -/
theorem altTrans_email (j : SubRule)
    (hmail : ∀ v, matchCI "mail".toList (j.repl ++ v) = none)
    (f : ℕ) (c : Char) (cs : List Char) (hl : cs.length ≤ f)
    (h : (tryAlt none (mkAlt "e-mail") (c :: cs)).isNone = true) :
    (tryAlt none (mkAlt "e-mail") (c :: subFuel j f true cs)).isNone = true := by
  have hrep : mkAlt "e-mail" = ('e', '-' :: "mail".toList) := rfl
  rw [hrep] at h ⊢
  rw [tryAlt_isNone_none_lk] at h ⊢
  rw [Bool.not_eq_true'] at h ⊢
  dsimp only at h ⊢
  rw [wMatchB_cons] at h ⊢
  by_cases hci : ciEq 'e' c = true
  · rw [if_pos hci] at h ⊢
    cases cs with
    | nil => rw [subFuel_nil]; exact h
    | cons d ds =>
      cases f with
      | zero => simp at hl
      | succ f =>
        rw [subFuel_cons_true]
        rw [wMatchB_cons] at h ⊢
        by_cases hcd : ciEq '-' d = true
        · rw [if_pos hcd] at h ⊢
          have hd : d = '-' := ciEq_dash d hcd
          subst hd
          rw [show isWordChar '-' = false from by decide]
          exact wMatchB_subFuel_false j "mail".toList (by decide) (by decide)
            hmail f ds (by simpa using hl) h
        · rw [Bool.not_eq_true] at hcd
          rw [hcd]
          simp
  · rw [Bool.not_eq_true] at hci
    rw [hci]
    simp

theorem ciIsPre_preserve_true (j : SubRule) :
    ∀ (w : List Char), w.all isWordChar = true →
    ∀ (f : ℕ) (X : List Char), X.length ≤ f → ciIsPre w X = true →
      ciIsPre w (subFuel j f true X) = true := by
  intro w
  induction w with
  | nil => intro _ f X _ _; rfl
  | cons w0 ws ih =>
    intro hw f X hl h
    rw [List.all_cons, Bool.and_eq_true] at hw
    cases X with
    | nil => exact absurd h (by simp [ciIsPre])
    | cons x xs =>
      cases f with
      | zero => simp at hl
      | succ f =>
        rw [subFuel_cons_true]
        unfold ciIsPre at h ⊢
        rw [Bool.and_eq_true] at h
        have hxw : isWordChar x = true := by
          rw [← ciEq_isWordChar w0 x h.1]
          exact hw.1
        rw [hxw]
        rw [h.1, ih hw.2 f xs (by simpa using hl) h.2]
        rfl

theorem ciEq_symm (a b : Char) (h : ciEq a b = true) : ciEq b a = true := by
  unfold ciEq at h ⊢
  rw [decide_eq_true_eq] at h ⊢
  exact h.symm

theorem ciEq_trans (a b c : Char) (h1 : ciEq a b = true) (h2 : ciEq b c = true) :
    ciEq a c = true := by
  unfold ciEq at h1 h2 ⊢
  rw [decide_eq_true_eq] at h1 h2 ⊢
  exact h1.trans h2

theorem matchCI_none_of_ciMismatch :
    ∀ (a W X : List Char), ciMismatch a W = true → ciIsPre W X = true →
      matchCI a X = none := by
  intro a
  induction a with
  | nil => intro W X h _; exact absurd h (by simp [ciMismatch])
  | cons a0 as ih =>
    intro W X h hpre
    cases W with
    | nil => exact absurd h (by simp [ciMismatch])
    | cons w ws =>
      cases X with
      | nil => exact absurd hpre (by simp [ciIsPre])
      | cons x xs =>
        unfold ciIsPre at hpre
        rw [Bool.and_eq_true] at hpre
        unfold ciMismatch at h
        conv_lhs => rw [matchCI]
        split at h
        · rename_i hci
          rw [ih ws xs h hpre.2]
          split <;> rfl
        · rename_i hci
          have hne : ciEq a0 x = false := by
            by_contra hcon
            rw [Bool.not_eq_false] at hcon
            exact hci (ciEq_trans a0 x w hcon (ciEq_symm w x hpre.1))
          rw [hne]
          simp

theorem matchCI_rest_pre :
    ∀ (pat X r : List Char), matchCI pat X = some r →
      ∀ W, ciIsPre W X = true → ciIsPre (W.drop pat.length) r = true := by
  intro pat
  induction pat with
  | nil =>
    intro X r h W hpre
    simp only [matchCI, Option.some.injEq] at h
    subst h
    simpa using hpre
  | cons p ps ih =>
    intro X r h W hpre
    cases X with
    | nil => exact absurd h (by simp [matchCI])
    | cons x xs =>
      conv_lhs at h => rw [matchCI]
      split at h
      · cases W with
        | nil => simp [ciIsPre]
        | cons w ws =>
          unfold ciIsPre at hpre
          rw [Bool.and_eq_true] at hpre
          simpa using ih xs r h ws hpre.2
      · exact absurd h (by simp)

theorem ciIsPre_all_nil : ∀ (X : List Char), ciIsPre [] X = true := fun _ => rfl

/-- A certified-safe alternative never fires on text that carries `W` as a
case-insensitive prefix. -/
theorem tryAlt_none_of_altCSafe (lk : Option (List Char))
    (a : Char × List Char) (W : List Char) (hc : altCSafe a W = true)
    (X : List Char) (hpre : ciIsPre W X = true) : tryAlt lk a X = none := by
  unfold altCSafe at hc
  rw [Bool.or_eq_true] at hc
  cases X with
  | nil => rfl
  | cons x xs =>
    rcases hc with hmis | hpw
    · have hnone := matchCI_none_of_ciMismatch (a.1 :: a.2) W (x :: xs) hmis hpre
      conv_lhs at hnone => rw [matchCI]
      simp only [tryAlt]
      split at hnone
      · rw [hnone]
        split <;> rfl
      · rename_i hci
        rw [if_neg hci]
    · rw [Bool.and_eq_true] at hpw
      obtain ⟨hpw1, hpw2⟩ := hpw
      simp only [tryAlt]
      by_cases hci : ciEq a.1 x = true
      · rw [if_pos hci]
        cases hm : matchCI a.2 xs with
        | none => rfl
        | some rest =>
          have hfull : matchCI (a.1 :: a.2) (x :: xs) = some rest := by
            conv_lhs => rw [matchCI]
            rw [if_pos hci, hm]
          have hrpre := matchCI_rest_pre (a.1 :: a.2) (x :: xs) rest hfull W hpre
          cases hd : W.drop (a.1 :: a.2).length with
          | nil =>
            rw [show (a.1 :: a.2).length = a.2.length + 1 from by simp] at hd
            rw [hd] at hpw2
            simp at hpw2
          | cons wb ws2 =>
            rw [hd] at hrpre
            cases rest with
            | nil => exact absurd hrpre (by simp [ciIsPre])
            | cons rh rt =>
              unfold ciIsPre at hrpre
              rw [Bool.and_eq_true] at hrpre
              rw [show (a.1 :: a.2).length = a.2.length + 1 from by simp]
                at hd
              rw [hd] at hpw2
              dsimp only at hpw2
              have hrw : isWordChar rh = true := by
                rw [← ciEq_isWordChar wb rh hrpre.1]
                exact hpw2
              have hb : boundaryAfter (rh :: rt) = false := by
                simp [boundaryAfter, hrw]
              simp [hm, hb]
      · rw [Bool.not_eq_true] at hci
        rw [hci]
        simp

theorem tryAlts_none_of_altCSafe (lk : Option (List Char)) :
    ∀ (alts : List (Char × List Char)) (W : List Char),
      alts.all (fun a => altCSafe a W) = true →
      ∀ X, ciIsPre W X = true → tryAlts lk alts X = none := by
  intro alts
  induction alts with
  | nil => intro W _ X _; rfl
  | cons a as ih =>
    intro W hall X hpre
    rw [List.all_cons, Bool.and_eq_true] at hall
    unfold tryAlts
    rw [tryAlt_none_of_altCSafe lk a W hall.1 X hpre]
    exact ih W hall.2 X hpre

theorem ciEq_refl (a : Char) : ciEq a a = true := by
  unfold ciEq
  simp

theorem ciIsPre_refl_append : ∀ (u v : List Char), ciIsPre u (u ++ v) = true := by
  intro u
  induction u with
  | nil => intro v; rfl
  | cons c cs ih =>
    intro v
    show ciIsPre (c :: cs) (c :: (cs ++ v)) = true
    unfold ciIsPre
    rw [ciEq_refl, ih v]
    rfl

theorem matchCI_self_append : ∀ (p v : List Char), matchCI p (p ++ v) = some v := by
  intro p
  induction p with
  | nil => intro v; rfl
  | cons c cs ih =>
    intro v
    show matchCI (c :: cs) (c :: (cs ++ v)) = some v
    unfold matchCI
    rw [ciEq_refl, ih v]
    rfl

theorem tryAlts_isNone_cons (lk : Option (List Char)) (a : Char × List Char)
    (as : List (Char × List Char)) (s : List Char) :
    (tryAlts lk (a :: as) s).isNone =
      ((tryAlt lk a s).isNone && (tryAlts lk as s).isNone) := by
  conv_lhs => rw [tryAlts]
  cases h : tryAlt lk a s with
  | some r => rfl
  | none => simp

/-- Transfer for a whole alternation of all-word alternatives at a copied
position (no lookahead). -/
theorem tryAlts_trans_word (j : SubRule) :
    ∀ (alts : List (Char × List Char)),
      (∀ a ∈ alts, (a.1 :: a.2).all isWordChar = true) →
      ∀ (f : ℕ) (c : Char) (cs : List Char), cs.length ≤ f →
        (tryAlts none alts (c :: subFuel j f true cs)).isNone =
          (tryAlts none alts (c :: cs)).isNone := by
  intro alts
  induction alts with
  | nil => intro _ f c cs _; rfl
  | cons a as ih =>
    intro h f c cs hl
    rw [tryAlts_isNone_cons, tryAlts_isNone_cons]
    rw [altTrans_word j a (h a (by simp)) f c cs hl]
    rw [ih (fun x hx => h x (by simp [hx])) f c cs hl]

theorem rules_alt_heads_word :
    ∀ j ∈ allRules, ∀ a ∈ j.alts, isWordChar a.1 = true := by decide

theorem rules_csafe :
    ∀ j ∈ allRules, j.alts.all (fun a => altCSafe a "Consulting".toList) = true := by
  decide

theorem rules_mail :
    ∀ j ∈ allRules, ciMismatch "mail".toList j.repl = true := by decide

theorem rules_repl_prev : ∀ j ∈ allRules, prevAfter false j.repl = true := by decide

/-- A mismatch of the pattern inside the replacement blocks the match whatever
text follows the replacement. -/
theorem matchCI_none_repl (p u : List Char) (h : ciMismatch p u = true)
    (v : List Char) : matchCI p (u ++ v) = none :=
  matchCI_none_of_ciMismatch p u (u ++ v) h (ciIsPre_refl_append u v)

/-- The lookahead continuation (skip whitespace, then the word) survives a
substitution pass started in a non-word context, provided every alternative
of the substituting rule is certified safe against the word. -/
theorem lookRest_preserve (j : SubRule) (W : List Char)
    (hjw : ∀ a ∈ j.alts, isWordChar a.1 = true)
    (hsafe : j.alts.all (fun a => altCSafe a W) = true)
    (hW : W.all isWordChar = true) (hWne : W ≠ []) :
    ∀ (f : ℕ) (X : List Char), X.length ≤ f → lookRest W X = true →
      lookRest W (subFuel j f false X) = true := by
  intro f
  induction f with
  | zero => intro X _ h; exact h
  | succ f ih =>
    intro X hl h
    cases X with
    | nil => exact absurd h (by simp [lookRest])
    | cons c cs =>
      unfold lookRest at h
      by_cases hws : c.isWhitespace = true
      · rw [if_pos hws] at h
        have hcw : isWordChar c = false := ws_not_word c hws
        rw [subFuel_nonword_head j hjw f false c cs hcw]
        unfold lookRest
        rw [if_pos hws]
        exact ih cs (by simpa using hl) h
      · rw [if_neg hws] at h
        have hnone : tryAlts j.lookA j.alts (c :: cs) = none :=
          tryAlts_none_of_altCSafe j.lookA j.alts W hsafe (c :: cs) h
        conv_lhs => rw [subFuel]
        rw [if_neg (by simp), hnone]
        dsimp only
        cases W with
        | nil => exact absurd rfl hWne
        | cons w ws =>
          unfold ciIsPre at h
          rw [Bool.and_eq_true] at h
          rw [List.all_cons, Bool.and_eq_true] at hW
          have hcw : isWordChar c = true := by
            rw [← ciEq_isWordChar w c h.1]
            exact hW.1
          rw [hcw]
          unfold lookRest
          rw [if_neg hws]
          unfold ciIsPre
          rw [h.1, ciIsPre_preserve_true j ws hW.2 f cs (by simpa using hl) h.2]
          rfl

theorem lookWS_preserve (j : SubRule) (W : List Char)
    (hjw : ∀ a ∈ j.alts, isWordChar a.1 = true)
    (hsafe : j.alts.all (fun a => altCSafe a W) = true)
    (hW : W.all isWordChar = true) (hWne : W ≠ []) :
    ∀ (f : ℕ) (X : List Char), X.length ≤ f → lookWS W X = true →
      lookWS W (subFuel j f true X) = true := by
  intro f X hl h
  cases X with
  | nil => exact absurd h (by simp [lookWS])
  | cons c cs =>
    unfold lookWS at h
    rw [Bool.and_eq_true] at h
    cases f with
    | zero => simp at hl
    | succ f =>
      rw [subFuel_cons_true, ws_not_word c h.1]
      unfold lookWS
      dsimp only
      rw [h.1]
      rw [if_neg hWne] at h ⊢
      rw [lookRest_preserve j W hjw hsafe hW hWne f cs (by simpa using hl) h.2]
      rfl

/-- Transfer for the Githaf alternative with its negative lookahead: a blocked
position stays blocked after substituting the tail in a word context. -/
theorem altTrans_githaf (j : SubRule)
    (hjw : ∀ a ∈ j.alts, isWordChar a.1 = true)
    (hsafe : j.alts.all (fun a => altCSafe a "Consulting".toList) = true)
    (f : ℕ) (c : Char) (cs : List Char) (hl : cs.length ≤ f)
    (h : (tryAlt (some "Consulting".toList) (mkAlt "Githaf") (c :: cs)).isNone
          = true) :
    (tryAlt (some "Consulting".toList) (mkAlt "Githaf")
        (c :: subFuel j f true cs)).isNone = true := by
  have hrep : mkAlt "Githaf" = ('G', "ithaf".toList) := rfl
  rw [hrep] at h ⊢
  simp only [tryAlt] at h ⊢
  by_cases hci : ciEq 'G' c = true
  · rw [if_pos hci] at h ⊢
    rcases matchCI_subFuel_true j "ithaf".toList (by decide) f cs hl with
      ⟨h1, h2⟩ | ⟨r, fr, h1, hrl, h2⟩
    · rw [h2]
      simp
    · rw [h1] at h
      rw [h2]
      dsimp only at h ⊢
      simp only [boundaryAfter_subFuel_true j fr r hrl]
      by_cases hb : boundaryAfter r = true
      · simp only [hb, Bool.true_and] at h ⊢
        by_cases hlo : lookOk (some "Consulting".toList) r = true
        · rw [if_pos hlo] at h
          simp at h
        · have hws2 : lookWS "Consulting".toList r = true := by
            rw [Bool.not_eq_true] at hlo
            unfold lookOk at hlo
            simpa using hlo
          have hpres := lookWS_preserve j "Consulting".toList hjw hsafe
            (by decide) (by decide) fr r hrl hws2
          simp only [lookOk, hpres]
          simp
      · rw [Bool.not_eq_true] at hb
        simp [hb]
  · rw [if_neg hci] at h ⊢
    simp

/-- Soundness of the segment certificate: a certified replacement segment is
clean whatever text follows it. -/
theorem scanCleanSeg_of_segSafe (i : SubRule) :
    ∀ (u : List Char) (p : Bool), segSafe i p u = true →
      ∀ v, scanCleanSeg i p u v = true := by
  intro u
  induction u with
  | nil => intro p _ v; rfl
  | cons c cs ih =>
    intro p hs v
    unfold segSafe at hs
    rw [Bool.and_eq_true] at hs
    unfold scanCleanSeg
    rw [ih (isWordChar c) hs.2 v, Bool.and_true]
    cases p with
    | true => rfl
    | false =>
      rw [Bool.false_or] at hs ⊢
      have hall := hs.1
      rw [Option.isNone_iff_eq_none]
      exact tryAlts_none_of_altCSafe i.lookA i.alts (c :: cs) hall
        ((c :: cs) ++ v) (ciIsPre_refl_append (c :: cs) v)

/-- The Githaf rule cannot fire inside its own replacement, whatever follows:
at the start the negative lookahead sees the following word Consulting, and
at the later non-word context the alternative mismatches. -/
theorem githaf_self_seg :
    ∀ v, scanCleanSeg githafRule false "Githaf Consulting".toList v = true := by
  intro v
  have hsplit : "Githaf Consulting".toList = 'G' :: "ithaf Consulting".toList := by
    decide
  rw [hsplit]
  unfold scanCleanSeg
  rw [Bool.false_or, Bool.and_eq_true]
  constructor
  · rw [Option.isNone_iff_eq_none]
    show tryAlts githafRule.lookA githafRule.alts
      ('G' :: ("ithaf Consulting".toList ++ v)) = none
    have halts : githafRule.alts = [('G', "ithaf".toList)] := by decide
    have hlk : githafRule.lookA = some "Consulting".toList := by decide
    rw [halts, hlk]
    unfold tryAlts
    have htail : "ithaf Consulting".toList ++ v =
        "ithaf".toList ++ (' ' :: ("Consulting".toList ++ v)) := by
      have : "ithaf Consulting".toList =
          "ithaf".toList ++ (' ' :: "Consulting".toList) := by decide
      rw [this, List.append_assoc]
      rfl
    simp only [tryAlt]
    rw [if_pos (by decide : ciEq ('G', "ithaf".toList).1 'G' = true)]
    rw [htail, matchCI_self_append]
    dsimp only
    have hlws : lookWS "Consulting".toList (' ' :: ("Consulting".toList ++ v))
        = true := by
      unfold lookWS
      dsimp only
      rw [if_neg (by decide : ¬ ("Consulting".toList = []))]
      have : lookRest "Consulting".toList ("Consulting".toList ++ v) = true := by
        show lookRest "Consulting".toList ('C' :: ("onsulting".toList ++ v)) = true
        unfold lookRest
        rw [if_neg (by decide : ¬ ('C'.isWhitespace = true))]
        exact ciIsPre_refl_append "Consulting".toList v
      rw [this]
      simp
    have hcond : (boundaryAfter (' ' :: ("Consulting".toList ++ v)) &&
        lookOk (some "Consulting".toList) (' ' :: ("Consulting".toList ++ v)))
        = false := by
      unfold lookOk
      dsimp only
      rw [hlws]
      simp
    simp only [hcond]
    simp [tryAlts]
  · have hsafe2 : segSafe githafRule true "ithaf Consulting".toList = true := by
      decide
    have := scanCleanSeg_of_segSafe githafRule "ithaf Consulting".toList true
      hsafe2 v
    simpa using this

/-- Every replacement segment is clean for every rule, whatever follows it. -/
theorem hseg_all :
    ∀ i ∈ allRules, ∀ j ∈ allRules, ∀ v,
      scanCleanSeg i false j.repl v = true := by
  have hD : ∀ i ∈ allRules, ∀ j ∈ allRules,
      segSafe i false j.repl = true ∨ (i = githafRule ∧ j = githafRule) := by
    decide
  intro i hi j hj v
  rcases hD i hi j hj with hS | ⟨hi2, hj2⟩
  · exact scanCleanSeg_of_segSafe i j.repl false hS v
  · subst hi2
    subst hj2
    have hrepl : githafRule.repl = "Githaf Consulting".toList := by decide
    rw [hrepl]
    exact githaf_self_seg v

/-- Transfer for the e-mail rule's alternation: two all-word alternatives plus
the dashed one. -/
theorem htrans_email (j : SubRule)
    (hmail : ∀ v, matchCI "mail".toList (j.repl ++ v) = none)
    (f : ℕ) (c : Char) (cs : List Char) (hl : cs.length ≤ f)
    (h : (tryAlts none [mkAlt "emial", mkAlt "emal", mkAlt "e-mail"]
          (c :: cs)).isNone = true) :
    (tryAlts none [mkAlt "emial", mkAlt "emal", mkAlt "e-mail"]
        (c :: subFuel j f true cs)).isNone = true := by
  rw [tryAlts_isNone_cons, tryAlts_isNone_cons, tryAlts_isNone_cons] at h ⊢
  simp only [Bool.and_eq_true] at h
  obtain ⟨h1, h2, h3, _⟩ := h
  rw [altTrans_word j (mkAlt "emial") (by decide) f c cs hl, h1]
  rw [altTrans_word j (mkAlt "emal") (by decide) f c cs hl, h2]
  rw [altTrans_email j hmail f c cs hl h3]
  simp [tryAlts]

/-- Transfer for every rule of the table: a position that does not fire keeps
not firing after the tail is substituted (in a word context) by any rule of
the table. -/
theorem htrans_all :
    ∀ i ∈ allRules, ∀ j ∈ allRules,
      ∀ (f : ℕ) (c : Char) (cs : List Char), cs.length ≤ f →
        (tryAlts i.lookA i.alts (c :: cs)).isNone = true →
        (tryAlts i.lookA i.alts (c :: subFuel j f true cs)).isNone = true := by
  intro i hi j hj f c cs hl h
  have hjw := rules_alt_heads_word j hj
  have hsafe := rules_csafe j hj
  have hmail : ∀ v, matchCI "mail".toList (j.repl ++ v) = none :=
    fun v => matchCI_none_repl _ _ (rules_mail j hj) v
  fin_cases hi
  · have h2 : (tryAlt (some "Consulting".toList) (mkAlt "Githaf")
        (c :: cs)).isNone = true := by
      have hh : (tryAlts (some "Consulting".toList) [mkAlt "Githaf"]
          (c :: cs)).isNone = true := h
      rw [tryAlts_isNone_cons, Bool.and_eq_true] at hh
      exact hh.1
    show (tryAlts (some "Consulting".toList) [mkAlt "Githaf"]
        (c :: subFuel j f true cs)).isNone = true
    rw [tryAlts_isNone_cons, Bool.and_eq_true]
    exact ⟨altTrans_githaf j hjw hsafe f c cs hl h2, by simp [tryAlts]⟩
  · exact htrans_email j hmail f c cs hl h
  all_goals exact (tryAlts_trans_word j _ (by decide) f c cs hl).trans h

/-- One pass of a table rule over any input produces output on which that
rule no longer fires. -/
theorem subClean_self (j : SubRule)
    (hjw : ∀ a ∈ j.alts, isWordChar a.1 = true)
    (htr : ∀ (f : ℕ) (c : Char) (cs : List Char), cs.length ≤ f →
        (tryAlts j.lookA j.alts (c :: cs)).isNone = true →
        (tryAlts j.lookA j.alts (c :: subFuel j f true cs)).isNone = true)
    (hseg : ∀ v, scanCleanSeg j false j.repl v = true)
    (hrepl : prevAfter false j.repl = true) :
    ∀ (f : ℕ) (p : Bool) (s : List Char), s.length ≤ f →
      scanClean j p (subFuel j f p s) = true := by
  intro f
  induction f with
  | zero =>
    intro p s hl
    have hs : s = [] := by
      cases s with
      | nil => rfl
      | cons c cs => simp at hl
    subst hs
    rfl
  | succ f ih =>
    intro p s hl
    cases s with
    | nil => rw [subFuel_nil]; rfl
    | cons c cs =>
      cases p with
      | true =>
        rw [subFuel_cons_true]
        unfold scanClean
        rw [Bool.true_or, Bool.true_and]
        exact ih (isWordChar c) cs (by simpa using hl)
      | false =>
        conv_lhs => rw [subFuel]
        rw [if_neg (by simp)]
        cases hta : tryAlts j.lookA j.alts (c :: cs) with
        | none =>
          dsimp only
          unfold scanClean
          rw [Bool.false_or, Bool.and_eq_true]
          refine ⟨?_, ih (isWordChar c) cs (by simpa using hl)⟩
          cases hcw : isWordChar c with
          | false =>
            rw [Option.isNone_iff_eq_none]
            exact tryAlts_nonword j.lookA j.alts c (subFuel j f false cs) hjw hcw
          | true =>
            exact htr f c cs (by simpa using hl)
              (by rw [hta]; rfl)
        | some rest =>
          dsimp only
          rw [scanClean_append]
          rw [Bool.and_eq_true]
          refine ⟨hseg (subFuel j f true rest), ?_⟩
          rw [hrepl]
          exact ih true rest
            (le_trans (tryAlts_length j.lookA j.alts c cs rest hta)
              (by simpa using hl))

/-- A string on which rule `i` never fires stays that way after one pass of
any rule `j` of the table (given the transfer and segment certificates). -/
theorem subClean_keep (i j : SubRule)
    (hiw : ∀ a ∈ i.alts, isWordChar a.1 = true)
    (htr : ∀ (f : ℕ) (c : Char) (cs : List Char), cs.length ≤ f →
        (tryAlts i.lookA i.alts (c :: cs)).isNone = true →
        (tryAlts i.lookA i.alts (c :: subFuel j f true cs)).isNone = true)
    (hseg : ∀ v, scanCleanSeg i false j.repl v = true)
    (hrepl : prevAfter false j.repl = true) :
    ∀ (f : ℕ) (p : Bool) (s : List Char), s.length ≤ f →
      scanClean i p s = true → scanClean i p (subFuel j f p s) = true := by
  intro f
  induction f with
  | zero => intro p s _ hc; exact hc
  | succ f ih =>
    intro p s hl hc
    cases s with
    | nil => rw [subFuel_nil]; rfl
    | cons c cs =>
      unfold scanClean at hc
      rw [Bool.and_eq_true] at hc
      cases p with
      | true =>
        rw [subFuel_cons_true]
        unfold scanClean
        rw [Bool.true_or, Bool.true_and]
        exact ih (isWordChar c) cs (by simpa using hl) hc.2
      | false =>
        conv_lhs => rw [subFuel]
        rw [if_neg (by simp)]
        cases hta : tryAlts j.lookA j.alts (c :: cs) with
        | none =>
          dsimp only
          unfold scanClean
          rw [Bool.false_or, Bool.and_eq_true]
          refine ⟨?_, ih (isWordChar c) cs (by simpa using hl) hc.2⟩
          cases hcw : isWordChar c with
          | false =>
            rw [Option.isNone_iff_eq_none]
            exact tryAlts_nonword i.lookA i.alts c (subFuel j f false cs) hiw hcw
          | true =>
            refine htr f c cs (by simpa using hl) ?_
            have := hc.1
            rw [Bool.false_or] at this
            exact this
        | some rest =>
          dsimp only
          obtain ⟨⟨u, hu, hul⟩, _⟩ :=
            tryAlts_some_append j.lookA j.alts (c :: cs) rest hta
          have hrest : scanClean i true rest = true := by
            have hcc : scanClean i false (u ++ rest) = true := by
              rw [← hu]
              unfold scanClean
              rw [Bool.and_eq_true]
              exact ⟨hc.1, hc.2⟩
            rw [scanClean_append] at hcc
            rw [Bool.and_eq_true] at hcc
            cases hb : prevAfter false u with
            | true => rw [hb] at hcc; exact hcc.2
            | false =>
              rw [hb] at hcc
              exact scanClean_mono i rest hcc.2 true
          rw [scanClean_append, Bool.and_eq_true]
          refine ⟨hseg (subFuel j f true rest), ?_⟩
          rw [hrepl]
          exact ih true rest
            (le_trans (tryAlts_length j.lookA j.alts c cs rest hta)
              (by simpa using hl)) hrest

/-- After folding a sublist of the table over a string, every rule that was
already clean or that belongs to the folded sublist is clean. -/
theorem fold_clean :
    ∀ (todo : List SubRule), (∀ j ∈ todo, j ∈ allRules) →
      ∀ (s : List Char) (i : SubRule), i ∈ allRules →
        (scanClean i false s = true ∨ i ∈ todo) →
        scanClean i false (todo.foldl (fun t r => scanSub r t) s) = true := by
  intro todo
  induction todo with
  | nil =>
    intro _ s i _ hyp
    rcases hyp with hclean | hmem
    · simpa using hclean
    · simp at hmem
  | cons j rest ih =>
    intro hsub s i hi hyp
    have hj : j ∈ allRules := hsub j (by simp)
    have hrest : ∀ r ∈ rest, r ∈ allRules := fun r hr => hsub r (by simp [hr])
    rw [List.foldl_cons]
    apply ih hrest (scanSub j s) i hi
    rcases hyp with hclean | hmem
    · left
      exact subClean_keep i j (rules_alt_heads_word i hi)
        (htrans_all i hi j hj) (hseg_all i hi j hj) (rules_repl_prev j hj)
        s.length false s (le_refl _) hclean
    · rcases List.mem_cons.mp hmem with hij | hmem2
      · subst hij
        left
        exact subClean_self i (rules_alt_heads_word i hi)
          (htrans_all i hi i hi) (hseg_all i hi i hi) (rules_repl_prev i hi)
          s.length false s (le_refl _)
      · right
        exact hmem2

/-- Folding the table over a string on which no rule fires is the identity. -/
theorem fold_id :
    ∀ (todo : List SubRule) (s : List Char),
      (∀ j ∈ todo, scanClean j false s = true) →
      todo.foldl (fun t r => scanSub r t) s = s := by
  intro todo
  induction todo with
  | nil => intro s _; rfl
  | cons j rest ih =>
    intro s h
    rw [List.foldl_cons]
    have hid : scanSub j s = s :=
      subFuel_id_of_clean j s.length false s (le_refl _) (h j (by simp))
    rw [hid]
    exact ih s (fun r hr => h r (by simp [hr]))

theorem preprocess_fold (q : List Char) :
    preprocess_query q =
      if q.all Char.isWhitespace then q
      else allRules.foldl (fun t r => scanSub r t) q := by
  unfold preprocess_query allRules
  rw [List.foldl_cons]

/-- C7: preprocessing is idempotent on every input, and empty or
whitespace-only input is returned unchanged (in this embedding
preprocess_query is a total function, so it never raises). -/
theorem C7_preprocess_idempotent (q : List Char) :
    preprocess_query (preprocess_query q) = preprocess_query q ∧
    (q.all Char.isWhitespace = true → preprocess_query q = q) := by
  constructor
  · by_cases hws : q.all Char.isWhitespace = true
    · have h1 : preprocess_query q = q := by
        unfold preprocess_query
        rw [if_pos hws]
      rw [h1, h1]
    · have hclean : ∀ r ∈ allRules,
          scanClean r false (allRules.foldl (fun t j => scanSub j t) q) = true :=
        fun r hr => fold_clean allRules (fun _ h => h) q r hr (Or.inr hr)
      have hfold : preprocess_query q =
          allRules.foldl (fun t j => scanSub j t) q := by
        rw [preprocess_fold, if_neg hws]
      rw [hfold, preprocess_fold]
      by_cases hws2 :
          (allRules.foldl (fun t j => scanSub j t) q).all Char.isWhitespace = true
      · rw [if_pos hws2]
      · rw [if_neg hws2]
        exact fold_id allRules _ hclean
  · intro h
    unfold preprocess_query
    rw [if_pos h]

/-- C7 witness: a concrete whitespace-only input, with the hypothesis of the
second conjunct discharged. -/
theorem C7_preprocess_idempotent_witness :
    preprocess_query (preprocess_query "  ".toList) =
      preprocess_query "  ".toList ∧
    preprocess_query "  ".toList = "  ".toList :=
  ⟨(C7_preprocess_idempotent ("  ".toList)).1,
   (C7_preprocess_idempotent ("  ".toList)).2 (by decide)⟩
